import Mathlib

/-!
Verification of the text-to-record extraction core of `src/app.py`:

* the five line grammars `PO_HEADER`, `LINE_ITEM`, `ACCOUNT_LINE`, `INVOICED`,
  `INVOICED_ZERO` (module-level `re` patterns, all used through `.match`, i.e.
  anchored at the start of the line and allowed to leave a suffix unconsumed);
* `parse_amount` / Python `float` on the strings the grammars can capture;
* the record assembler `parse_pages` (stateful loop over pages and lines);
* the per-chunk processing loop of `process_one_file` (fresh parser state per
  chunk, cumulative `page_offset`);
* the pure page-window skeleton of `split_pdf_bytes`.

Python regexes are embedded as a syntax tree (`RE`) together with a matcher
`mtch` that returns every way the pattern can match a prefix of the input, in
exactly Python's backtracking priority order (alternation left first, greedy
repetition longest first, lazy repetition shortest first); `reMatch` takes the
first result, which is the match `re.Pattern.match` returns.  Repetition only
ever applies to single-character classes, exactly as in the five source
patterns.  Character classes are ASCII, and `\s` is modelled as space/tab: the
lines fed to the patterns come from `str.splitlines()`, which removes every
other whitespace character Python's `\s` accepts.  `.` is any char but `\n`.

Numbers: Python's `float` is modelled as an exact decimal rational
(`pyFloat`), `None`/exceptions as `Option`.  A `ValueError` escaping from
`float` aborts `parse_pages` (and with it the document), which is modelled by
`Option` propagation: a `none` result of the parser is Python raising.
The truncation sentinel `"N/A (PDF truncated)"` is the constructor
`InvVal.truncated`, distinct from `InvVal.amt 0`.

Page texts are represented as the list of lines `str.splitlines()` produces
(so a page is a `List String` of raw, unstripped lines, none containing a
line-break character).
-/

namespace App

/-! ### Characters, Python `strip`, Python `float` -/

/-- The characters Python's no-argument `str.strip()` removes (ASCII part;
the unicode spaces cannot occur in the OCR text handled here). -/
def pyWs (c : Char) : Bool :=
  c = ' ' || c = '\t' || c = '\n' || c = '\r' || c = '\x0b' || c = '\x0c'

/-- Python `str.strip()` on a list of characters. -/
def pyStripL (s : List Char) : List Char :=
  ((s.dropWhile pyWs).reverse.dropWhile pyWs).reverse

/-- `\s` inside one line produced by `splitlines` (space or tab). -/
def wsC (c : Char) : Bool := c = ' ' || c = '\t'

/-- `\d` (ASCII). -/
def digC (c : Char) : Bool := '0' ≤ c && c ≤ '9'

/-- `[A-Z]`. -/
def upC (c : Char) : Bool := 'A' ≤ c && c ≤ 'Z'

/-- `[OQ]`. -/
def oqC (c : Char) : Bool := c = 'O' || c = 'Q'

/-- `[\d,]`. -/
def digCommaC (c : Char) : Bool := digC c || c = ','

/-- `[\d.]`. -/
def digDotC (c : Char) : Bool := digC c || c = '.'

/-- `[%&$]`. -/
def pctC (c : Char) : Bool := c = '%' || c = '&' || c = '$'

/-- `.` — any character except a newline. -/
def dotC (c : Char) : Bool := !(c = '\n')

/-- Value of a list of decimal digit characters. -/
def digitsToNat (ds : List Char) : Nat :=
  ds.foldl (fun a c => 10 * a + (c.toNat - 48)) 0

/-- Python `float(s)` on the strings reachable from the grammars (digits and
dots; commas are removed by `parse_amount` beforehand).  Accepts
`digits`, `digits.digits`, `.digits`, `digits.` — at least one digit, at most
one dot — and rejects everything else (Python raises `ValueError`).  The value
is the exact decimal as a rational; signs, exponents, `inf`/`nan`,
underscores and surrounding whitespace cannot occur in a captured group of
these patterns. -/
def pyFloat (s : List Char) : Option ℚ :=
  let ip := s.takeWhile digC
  let rest := s.drop ip.length
  match rest with
  | [] => if ip.isEmpty then none else some (digitsToNat ip : ℚ)
  | '.' :: fp =>
      if fp.all digC && !(ip.isEmpty && fp.isEmpty) then
        some ((digitsToNat ip : ℚ) + (digitsToNat fp : ℚ) / (10 ^ fp.length : ℚ))
      else none
  | _ => none

/-- `text.replace(",", "")` from `parse_amount`. -/
def stripCommas (s : List Char) : List Char := s.filter (fun c => !(c = ','))

/-- `parse_amount(text) = float(text.replace(",", ""))`. -/
def parse_amount (s : List Char) : Option ℚ := pyFloat (stripCommas s)

/-! ### A tiny regex engine (Python `re` semantics for the five patterns) -/

/-- Captured groups: group index paired with captured text.  Later entries
shadow earlier ones (Python keeps the last capture of a group). -/
abbrev Caps := List (Nat × List Char)

/-- Regex syntax.  Repetition (`repG` greedy, `repL` lazy) ranges over a
single character class, with a lower bound and an optional upper bound, which
covers every repetition in the five source patterns (`+ * ? {m} {m,n}`). -/
inductive RE where
  | lit  : List Char → RE
  | cls  : (Char → Bool) → RE
  | cat  : RE → RE → RE
  | alt  : RE → RE → RE
  | grp  : Nat → RE → RE
  | opt  : RE → RE
  | repG : (Char → Bool) → Nat → Option Nat → RE
  | repL : (Char → Bool) → Nat → Option Nat → RE

/-- Candidate repeat counts in greedy priority order: `top, top-1, …, lo`. -/
def repKsG (top lo : Nat) : List Nat :=
  (List.range (top + 1 - lo)).map fun i => top - i

/-- Candidate repeat counts in lazy priority order: `lo, lo+1, …, top`. -/
def repKsL (top lo : Nat) : List Nat :=
  (List.range (top + 1 - lo)).map fun i => lo + i

/-- All ways `e` can match a prefix of `s`, as `(consumed, rest, captures)`
triples, in Python's backtracking priority order (first = the match Python
reports). -/
def mtch : RE → List Char → List (List Char × List Char × Caps)
  | .lit w, s => if w.isPrefixOf s then [(w, s.drop w.length, [])] else []
  | .cls p, s =>
      match s with
      | [] => []
      | c :: t => if p c then [([c], t, [])] else []
  | .cat a b, s =>
      (mtch a s).flatMap fun x =>
        (mtch b x.2.1).map fun y => (x.1 ++ y.1, y.2.1, x.2.2 ++ y.2.2)
  | .alt a b, s => mtch a s ++ mtch b s
  | .grp n a, s => (mtch a s).map fun x => (x.1, x.2.1, x.2.2 ++ [(n, x.1)])
  | .opt a, s => mtch a s ++ [([], s, [])]
  | .repG p lo hi, s =>
      let top := match hi with
        | none => (s.takeWhile p).length
        | some h => min (s.takeWhile p).length h
      if lo ≤ top then (repKsG top lo).map fun k => (s.take k, s.drop k, ([] : Caps))
      else []
  | .repL p lo hi, s =>
      let top := match hi with
        | none => (s.takeWhile p).length
        | some h => min (s.takeWhile p).length h
      if lo ≤ top then (repKsL top lo).map fun k => (s.take k, s.drop k, ([] : Caps))
      else []

/-- `pattern.match(line)`: the first (highest-priority) match, reduced to its
captured groups; `none` when the pattern does not match at the start. -/
def reMatch (e : RE) (s : List Char) : Option Caps :=
  (mtch e s).head?.map fun x => x.2.2

/-- `m.group(n)`: the last capture of group `n`, `none` when the group did not
participate in the match. -/
def grpGet (c : Caps) (n : Nat) : Option (List Char) :=
  (c.reverse.find? fun e => e.1 == n).map fun e => e.2

/-- `m.group(n)` as a `String` for groups that always participate. -/
def capStr (c : Caps) (n : Nat) : String := ⟨(grpGet c n).getD []⟩

/-! ### The five source patterns -/

/-- `\s+`. -/
def wsP : RE := .repG wsC 1 none

/-- `\s*`. -/
def wsS : RE := .repG wsC 0 none

/-- `c{k}` for a character class. -/
def rxRep (p : Char → Bool) (k : Nat) : RE := .repG p k (some k)

/-- `(?:PU|EA|BU)`. -/
def unitRE : RE := .alt (.lit "PU".data) (.alt (.lit "EA".data) (.lit "BU".data))

/-- `[\d,]+\.\d{2}` — the amount shape shared by `ACCOUNT_LINE` and
`INVOICED`. -/
def amountRE : RE := .cat (.repG digCommaC 1 none) (.cat (.lit ".".data) (rxRep digC 2))

/-- `^(4500\d{6})\s+(FO|NB)\s+(\d+)\s+(.+?)\s+(BC\d)\s+(\d{2}/\d{2}/\d{4})`. -/
def PO_HEADER : RE :=
  .cat (.grp 1 (.cat (.lit "4500".data) (rxRep digC 6)))
  (.cat wsP
  (.cat (.grp 2 (.alt (.lit "FO".data) (.lit "NB".data)))
  (.cat wsP
  (.cat (.grp 3 (.repG digC 1 none))
  (.cat wsP
  (.cat (.grp 4 (.repL dotC 1 none))
  (.cat wsP
  (.cat (.grp 5 (.cat (.lit "BC".data) (.cls digC)))
  (.cat wsP
  (.grp 6 (.cat (rxRep digC 2)
           (.cat (.lit "/".data)
           (.cat (rxRep digC 2)
           (.cat (.lit "/".data) (rxRep digC 4)))))))))))))))

/-- `^(0[0-9]{4})\s+(.+)`. -/
def LINE_ITEM : RE :=
  .cat (.grp 1 (.cat (.lit "0".data) (rxRep digC 4)))
  (.cat wsP (.grp 2 (.repG dotC 1 none)))

/-- `^(?:L\s+)?(?:B\s+)?(\d)\s+([A-Z]{2,4}\d?)\s*(\d{4})?\s+\d+\s+(?:PU|EA|BU)\s+([\d,]+\.\d{2})\s+USD`. -/
def ACCOUNT_LINE : RE :=
  .cat (.opt (.cat (.lit "L".data) wsP))
  (.cat (.opt (.cat (.lit "B".data) wsP))
  (.cat (.grp 1 (.cls digC))
  (.cat wsP
  (.cat (.grp 2 (.cat (.repG upC 2 (some 4)) (.repG digC 0 (some 1))))
  (.cat wsS
  (.cat (.opt (.grp 3 (rxRep digC 4)))
  (.cat wsP
  (.cat (.repG digC 1 none)
  (.cat wsP
  (.cat unitRE
  (.cat wsP
  (.cat (.grp 4 amountRE)
  (.cat wsP (.lit "USD".data))))))))))))))

/-- `Still to be invoiced\s+(\d+|[OQ]+)\s+(?:PU|EA|BU)\s+([\d,]+\.\d{2})\s+USD\s+([\d.]+)\s*[%&$]*`. -/
def INVOICED : RE :=
  .cat (.lit "Still to be invoiced".data)
  (.cat wsP
  (.cat (.grp 1 (.alt (.repG digC 1 none) (.repG oqC 1 none)))
  (.cat wsP
  (.cat unitRE
  (.cat wsP
  (.cat (.grp 2 amountRE)
  (.cat wsP
  (.cat (.lit "USD".data)
  (.cat wsP
  (.cat (.grp 3 (.repG digDotC 1 none))
  (.cat wsS (.repG pctC 0 none))))))))))))

/-- `Still to be invoiced\s+[OQ]+\s+(?:PU|EA|BU)\s+0\.00\s+USD\s+0\.00\s*[%&$]*`. -/
def INVOICED_ZERO : RE :=
  .cat (.lit "Still to be invoiced".data)
  (.cat wsP
  (.cat (.repG oqC 1 none)
  (.cat wsP
  (.cat unitRE
  (.cat wsP
  (.cat (.lit "0.00".data)
  (.cat wsP
  (.cat (.lit "USD".data)
  (.cat wsP
  (.cat (.lit "0.00".data)
  (.cat wsS (.repG pctC 0 none))))))))))))

/-! ### Data model -/

/-- The `current` dict of `parse_pages` when it is non-empty: the six header
groups, plus `line_num`/`desc` keys that may be absent (`none` — `dict.get`
then defaults to `""`).  `parse_pages` starts with `current = {}`, modelled as
`Option POCtx = none`. -/
structure POCtx where
  po : String
  ptype : String
  vid : String
  vname : String
  bc : String
  date : String
  lineNum : Option String
  desc : Option String
  deriving DecidableEq, Repr

/-- An invoiced-side field of a finished record: a number, or the truncation
sentinel string `"N/A (PDF truncated)"` (distinct from `amt 0`). -/
inductive InvVal where
  | amt : ℚ → InvVal
  | truncated : InvVal
  deriving DecidableEq, Repr

/-- A finished 14-field record (one row of the output). -/
structure Record where
  sourceFile : String
  page : Nat
  poNumber : String
  poType : String
  vendorId : String
  vendorName : String
  buyerCode : String
  poDate : String
  lineItem : String
  description : String
  accountCode : String
  poLineAmount : ℚ
  stillToBeInvoiced : InvVal
  invoicedPct : InvVal
  deriving DecidableEq, Repr

/-- The `pending` dict: a record whose two invoiced fields are still `None`. -/
structure Pending where
  sourceFile : String
  page : Nat
  poNumber : String
  poType : String
  vendorId : String
  vendorName : String
  buyerCode : String
  poDate : String
  lineItem : String
  description : String
  accountCode : String
  poLineAmount : ℚ
  deriving DecidableEq, Repr

/-- Close a pending record by filling its two invoiced fields. -/
def closeRec (p : Pending) (a b : InvVal) : Record :=
  ⟨p.sourceFile, p.page, p.poNumber, p.poType, p.vendorId, p.vendorName,
   p.buyerCode, p.poDate, p.lineItem, p.description, p.accountCode,
   p.poLineAmount, a, b⟩

/-- The pending dict built in the `ACCOUNT_LINE` branch of `parse_pages`:
snapshot of the current context plus the account code
`f-string of group 2, a space, group 3 or "", then .strip()` and the parsed
amount of group 4. -/
def mkPending (f : String) (actualPage : Nat) (ctx : POCtx) (m : Caps) (amt : ℚ) : Pending :=
  ⟨f, actualPage, ctx.po, ctx.ptype, ctx.vid, ctx.vname, ctx.bc, ctx.date,
   ctx.lineNum.getD "", ctx.desc.getD "",
   ⟨pyStripL ((grpGet m 2).getD [] ++ ' ' :: (grpGet m 3).getD [])⟩, amt⟩

/-- The fresh `current` dict built in the `PO_HEADER` branch: the six groups
(vendor name stripped); the dict is replaced wholesale, so the `line_num` and
`desc` keys are absent afterwards. -/
def headerCtx (m : Caps) : POCtx :=
  ⟨capStr m 1, capStr m 2, capStr m 3, ⟨pyStripL ((grpGet m 4).getD [])⟩,
   capStr m 5, capStr m 6, none, none⟩

/-- The mutable state of one `parse_pages` call: `current`, `pending`, and the
records accumulated so far. -/
structure PState where
  current : Option POCtx
  pending : Option Pending
  records : List Record
  deriving DecidableEq, Repr

/-- State at the top of `parse_pages`. -/
def initState : PState := ⟨none, none, []⟩

/-! ### The assembler `parse_pages` -/

/-- The body of the inner loop of `parse_pages` for one raw line, at absolute
page `actualPage`.  `none` models a `ValueError` escaping from `float`.
The branch structure mirrors the source: strip; skip blank or
`"ee en ed"`-prefixed lines; try `PO_HEADER`; then `LINE_ITEM` and
`ACCOUNT_LINE`, each effective only when `current` is non-empty (`if m and
current`); then `INVOICED` and `INVOICED_ZERO`, effective only with an open
`pending`. -/
def procLine (fname : String) (actualPage : Nat) (st : PState) (raw : String) :
    Option PState :=
  let line := pyStripL raw.data
  if line.isEmpty || "ee en ed".data.isPrefixOf line then some st
  else
    match reMatch PO_HEADER line with
    | some m => some { st with current := some (headerCtx m) }
    | none =>
      match reMatch LINE_ITEM line, st.current with
      | some m, some ctx =>
          some { st with current := some { ctx with
                   lineNum := some (capStr m 1),
                   desc := some ⟨pyStripL ((grpGet m 2).getD [])⟩ } }
      | _, _ =>
        match reMatch ACCOUNT_LINE line, st.current with
        | some m, some ctx =>
            match parse_amount ((grpGet m 4).getD []) with
            | none => none
            | some amt => some { st with pending := some (mkPending fname actualPage ctx m amt) }
        | _, _ =>
          match reMatch INVOICED line, st.pending with
          | some m, some p =>
              match parse_amount ((grpGet m 2).getD []), pyFloat ((grpGet m 3).getD []) with
              | some a, some pc =>
                  some { st with
                           pending := none,
                           records := st.records ++ [closeRec p (.amt a) (.amt pc)] }
              | _, _ => none
          | _, _ =>
            match reMatch INVOICED_ZERO line, st.pending with
            | some _, some p =>
                some { st with
                         pending := none,
                         records := st.records ++ [closeRec p (.amt 0) (.amt 0)] }
            | _, _ => some st

/-- All lines of one page, at absolute page `actualPage`. -/
def procPage (fname : String) (actualPage : Nat) (st : PState) :
    List String → Option PState
  | [] => some st
  | l :: ls =>
      match procLine fname actualPage st l with
      | none => none
      | some st' => procPage fname actualPage st' ls

/-- The page loop: `off` pages have been processed before this call, so the
next page is absolute page `off + 1` (`actual_page = page_num + page_offset`). -/
def runPages (fname : String) (off : Nat) (st : PState) :
    List (List String) → Option PState
  | [] => some st
  | pg :: rest =>
      match procPage fname (off + 1) st pg with
      | none => none
      | some st' => runPages fname (off + 1) st' rest

/-- The end-of-call step of `parse_pages`: a still-open pending record is
closed with the truncation sentinel in both invoiced fields and appended. -/
def finalizeP (st : PState) : List Record :=
  match st.pending with
  | none => st.records
  | some p => st.records ++ [closeRec p .truncated .truncated]

/-- `parse_pages(page_texts, source_filename, page_offset)`; each page text is
given as its `splitlines()` list. `none` models the call raising. -/
def parse_pages (pages : List (List String)) (fname : String) (off : Nat) :
    Option (List Record) :=
  (runPages fname off initState pages).map finalizeP

/-! ### The chunk loop of `process_one_file` -/

/-- The chunk loop of `process_one_file`: each chunk is parsed by a fresh
`parse_pages` call at the cumulative `page_offset`, records are concatenated,
and the offset advances by the chunk's page count (the OCR collaborator
returns one text per page, so a chunk's page count is its number of page
texts).  An exception in any chunk aborts the document. -/
def processChunksAux (fname : String) (off : Nat) :
    List (List (List String)) → Option (List Record)
  | [] => some []
  | c :: rest =>
      match parse_pages c fname off with
      | none => none
      | some rs => (processChunksAux fname (off + c.length) rest).map fun more => rs ++ more

/-- Record extraction of `process_one_file` on already-OCRed chunks. -/
def process_one_file (chunks : List (List (List String))) (fname : String) :
    Option (List Record) :=
  processChunksAux fname 0 chunks

/-! ### Instrumented assembler (ghost origin pages, used to state C9)

Identical to the assembler above except that the pending record and every
emitted record carry the 1-based local page index at which the originating
account line was read.  Erasing the ghost component recovers the assembler
exactly (`procLineI_erase` below). -/

/-- Instrumented parser state: pending and records carry the local page of
their originating account line. -/
structure PStateI where
  current : Option POCtx
  pendingI : Option (Pending × Nat)
  recordsI : List (Record × Nat)
  deriving DecidableEq, Repr

/-- Initial instrumented state. -/
def initStateI : PStateI := ⟨none, none, []⟩

/-- Drop the ghost origins. -/
def eraseSt (st : PStateI) : PState :=
  ⟨st.current, st.pendingI.map fun x => x.1, st.recordsI.map fun x => x.1⟩

/-- Instrumented `procLine`: the absolute page is `off + localPage` and the
account branch additionally records `localPage`. -/
def procLineI (fname : String) (off localPage : Nat) (st : PStateI) (raw : String) :
    Option PStateI :=
  let line := pyStripL raw.data
  if line.isEmpty || "ee en ed".data.isPrefixOf line then some st
  else
    match reMatch PO_HEADER line with
    | some m => some { st with current := some (headerCtx m) }
    | none =>
      match reMatch LINE_ITEM line, st.current with
      | some m, some ctx =>
          some { st with current := some { ctx with
                   lineNum := some (capStr m 1),
                   desc := some ⟨pyStripL ((grpGet m 2).getD [])⟩ } }
      | _, _ =>
        match reMatch ACCOUNT_LINE line, st.current with
        | some m, some ctx =>
            match parse_amount ((grpGet m 4).getD []) with
            | none => none
            | some amt =>
                some { st with
                         pendingI := some (mkPending fname (off + localPage) ctx m amt, localPage) }
        | _, _ =>
          match reMatch INVOICED line, st.pendingI with
          | some m, some p =>
              match parse_amount ((grpGet m 2).getD []), pyFloat ((grpGet m 3).getD []) with
              | some a, some pc =>
                  some { st with
                           pendingI := none,
                           recordsI := st.recordsI ++ [(closeRec p.1 (.amt a) (.amt pc), p.2)] }
              | _, _ => none
          | _, _ =>
            match reMatch INVOICED_ZERO line, st.pendingI with
            | some _, some p =>
                some { st with
                         pendingI := none,
                         recordsI := st.recordsI ++ [(closeRec p.1 (.amt 0) (.amt 0), p.2)] }
            | _, _ => some st

/-- Instrumented `procPage`. -/
def procPageI (fname : String) (off localPage : Nat) (st : PStateI) :
    List String → Option PStateI
  | [] => some st
  | l :: ls =>
      match procLineI fname off localPage st l with
      | none => none
      | some st' => procPageI fname off localPage st' ls

/-- Instrumented page loop: `localPage` counts pages of this call. -/
def runPagesI (fname : String) (off localPage : Nat) (st : PStateI) :
    List (List String) → Option PStateI
  | [] => some st
  | pg :: rest =>
      match procPageI fname off (localPage + 1) st pg with
      | none => none
      | some st' => runPagesI fname off (localPage + 1) st' rest

/-- Instrumented end-of-call truncation. -/
def finalizeI (st : PStateI) : List (Record × Nat) :=
  match st.pendingI with
  | none => st.recordsI
  | some p => st.recordsI ++ [(closeRec p.1 .truncated .truncated, p.2)]

/-- Instrumented `parse_pages`. -/
def parse_pagesI (pages : List (List String)) (fname : String) (off : Nat) :
    Option (List (Record × Nat)) :=
  (runPagesI fname off 0 initStateI pages).map finalizeI

/-- Instrumented chunk loop: every record is further tagged with the index of
the chunk that produced it. -/
def processChunksIAux (fname : String) (k off : Nat) :
    List (List (List String)) → Option (List (Record × Nat × Nat))
  | [] => some []
  | c :: rest =>
      match parse_pagesI c fname off with
      | none => none
      | some irs =>
          (processChunksIAux fname (k + 1) (off + c.length) rest).map fun more =>
            (irs.map fun x => (x.1, k, x.2)) ++ more

/-- Instrumented `process_one_file`. -/
def processChunksI (fname : String) (chunks : List (List (List String))) :
    Option (List (Record × Nat × Nat)) :=
  processChunksIAux fname 0 0 chunks

/-- Cumulative page count of the chunks before chunk `j`. -/
def offSum (chunks : List (List (List String))) (j : Nat) : Nat :=
  ((chunks.take j).map List.length).sum

/-! ### The page-window skeleton of `split_pdf_bytes` -/

/-- The pure page-window computation of `split_pdf_bytes`: the list of
`(start, end)` 0-based half-open windows (the code's `start`/`end` loop
variables; each part holds pages `start..end-1` and reports page count
`end - start`).  `num_pages <= chunk_size` yields the single full window;
otherwise `ceil(num_pages / chunk_size)` windows (`math.ceil` on exact
integers is `(n + c - 1) / c` in integer arithmetic). -/
def split_plan (numPages chunkSize : Nat) : List (Nat × Nat) :=
  if numPages ≤ chunkSize then [(0, numPages)]
  else
    (List.range ((numPages + chunkSize - 1) / chunkSize)).map fun i =>
      (i * chunkSize, min (i * chunkSize + chunkSize) numPages)

/-! ### Decidable side conditions used as theorem hypotheses -/

/-- The single-window run reaches every interior chunk boundary with an empty
context and no open pending record (records may have accumulated). -/
def chunkBoundariesClear (fname : String) (off : Nat)
    (chunks : List (List (List String))) : Bool :=
  (List.range chunks.length).all fun k =>
    match runPages fname off initState ((chunks.take k).flatten) with
    | some st => st.current.isNone && st.pending.isNone
    | none => true

/-- No line of the input matches `INVOICED` with a percent group on which
Python `float` would raise. -/
def percentOK (l : String) : Bool :=
  match reMatch INVOICED (pyStripL l.data) with
  | some m =>
      match grpGet m 3 with
      | some w => (pyFloat w).isSome
      | none => true
  | none => true

/-- `percentOK` over all lines of all pages. -/
def pagesPercentOK (pages : List (List String)) : Bool :=
  pages.all fun pg => pg.all percentOK

/-- Prepend already-accumulated records to a parser state (used to relate a
run started mid-document to a fresh run). -/
def addRecs (rs : List Record) (st : PState) : PState :=
  { st with records := rs ++ st.records }

/-- Shape of any string captured by the amount group `([\d,]+\.\d{2})`:
a non-empty run of digits/commas, a dot, then (two) digits. -/
def amountShape (w : List Char) : Prop :=
  ∃ w₁ w₂, w = w₁ ++ '.' :: w₂ ∧ w₁ ≠ [] ∧ w₁.all digCommaC = true ∧
    w₂ ≠ [] ∧ w₂.all digC = true

/-! ## Lemmas -/

/-! ### List helpers -/

theorem length_takeWhile_le (q : Char → Bool) (s : List Char) :
    (s.takeWhile q).length ≤ s.length := by
  induction s with
  | nil => simp
  | cons c t ih =>
      by_cases h : q c <;> simp [List.takeWhile_cons, h] <;> omega

theorem all_take_of_le_takeWhile {q : Char → Bool} :
    ∀ {s : List Char} {k : Nat}, k ≤ (s.takeWhile q).length → (s.take k).all q := by
  intro s
  induction s with
  | nil => intro k h; simp at h; simp [h]
  | cons c t ih =>
      intro k h
      by_cases hc : q c
      · cases k with
        | zero => simp
        | succ k' =>
            simp only [List.takeWhile_cons, hc, if_true, List.length_cons,
              Nat.succ_le_succ_iff] at h
            simp [List.all_cons, hc, ih h]
      · simp [List.takeWhile_cons, hc] at h
        simp [h]

theorem takeWhile_length_ge {q : Char → Bool} :
    ∀ {p r s : List Char}, s = p ++ r → p.all q → p.length ≤ (s.takeWhile q).length := by
  intro p
  induction p with
  | nil => simp
  | cons c t ih =>
      intro r s hs hall
      simp only [List.all_cons, Bool.and_eq_true] at hall
      subst hs
      simp only [List.cons_append, List.takeWhile_cons, hall.1, if_true,
        List.length_cons, Nat.succ_le_succ_iff]
      exact ih rfl hall.2

/-! ### Membership characterisation of the matcher -/

theorem mem_lit {w s p r : List Char} {c : Caps} :
    (p, r, c) ∈ mtch (.lit w) s ↔ p = w ∧ c = [] ∧ s = w ++ r := by
  simp only [mtch]
  by_cases hp : w.isPrefixOf s
  · rw [if_pos hp]
    obtain ⟨t, ht⟩ := List.isPrefixOf_iff_prefix.mp hp
    subst ht
    simp only [List.mem_singleton, Prod.mk.injEq, List.drop_left]
    constructor
    · rintro ⟨rfl, rfl, rfl⟩; exact ⟨rfl, rfl, rfl⟩
    · rintro ⟨rfl, rfl, hs⟩
      have := List.append_cancel_left hs
      exact ⟨rfl, this.symm, rfl⟩
  · rw [if_neg hp]
    simp only [List.not_mem_nil, false_iff]
    rintro ⟨rfl, -, rfl⟩
    exact hp (List.isPrefixOf_iff_prefix.mpr ⟨r, rfl⟩)

theorem mem_cls {q : Char → Bool} {s p r : List Char} {c : Caps} :
    (p, r, c) ∈ mtch (.cls q) s ↔ ∃ ch, q ch ∧ p = [ch] ∧ c = [] ∧ s = ch :: r := by
  cases s with
  | nil => simp [mtch]
  | cons a t =>
      simp only [mtch]
      by_cases h : q a
      · rw [if_pos h]
        simp only [List.mem_singleton, Prod.mk.injEq]
        constructor
        · rintro ⟨rfl, rfl, rfl⟩; exact ⟨a, h, rfl, rfl, rfl⟩
        · rintro ⟨ch, hch, rfl, rfl, heq⟩
          cases heq; exact ⟨rfl, rfl, rfl⟩
      · rw [if_neg h]
        simp only [List.not_mem_nil, false_iff]
        rintro ⟨ch, hch, -, -, heq⟩
        cases heq; exact h hch

theorem mem_cat {a b : RE} {s p r : List Char} {c : Caps} :
    (p, r, c) ∈ mtch (.cat a b) s ↔
      ∃ p₁ r₁ c₁ p₂ c₂, (p₁, r₁, c₁) ∈ mtch a s ∧ (p₂, r, c₂) ∈ mtch b r₁ ∧
        p = p₁ ++ p₂ ∧ c = c₁ ++ c₂ := by
  simp only [mtch, List.mem_flatMap, List.mem_map]
  constructor
  · rintro ⟨⟨p₁, r₁, c₁⟩, h₁, ⟨p₂, r₂, c₂⟩, h₂, heq⟩
    simp only [Prod.mk.injEq] at heq
    obtain ⟨e₁, e₂, e₃⟩ := heq
    subst e₁; subst e₂; subst e₃
    exact ⟨p₁, r₁, c₁, p₂, c₂, h₁, h₂, rfl, rfl⟩
  · rintro ⟨p₁, r₁, c₁, p₂, c₂, h₁, h₂, rfl, rfl⟩
    exact ⟨⟨p₁, r₁, c₁⟩, h₁, ⟨p₂, r, c₂⟩, h₂, rfl⟩

theorem mem_alt {a b : RE} {s p r : List Char} {c : Caps} :
    (p, r, c) ∈ mtch (.alt a b) s ↔ (p, r, c) ∈ mtch a s ∨ (p, r, c) ∈ mtch b s := by
  simp [mtch]

theorem mem_grp {n : Nat} {a : RE} {s p r : List Char} {c : Caps} :
    (p, r, c) ∈ mtch (.grp n a) s ↔
      ∃ c', (p, r, c') ∈ mtch a s ∧ c = c' ++ [(n, p)] := by
  simp only [mtch, List.mem_map]
  constructor
  · rintro ⟨⟨p₁, r₁, c₁⟩, h₁, heq⟩
    simp only [Prod.mk.injEq] at heq
    obtain ⟨e₁, e₂, e₃⟩ := heq
    subst e₁; subst e₂; subst e₃
    exact ⟨c₁, h₁, rfl⟩
  · rintro ⟨c', h, rfl⟩
    exact ⟨⟨p, r, c'⟩, h, rfl⟩

theorem mem_opt {a : RE} {s p r : List Char} {c : Caps} :
    (p, r, c) ∈ mtch (.opt a) s ↔
      (p, r, c) ∈ mtch a s ∨ (p = [] ∧ r = s ∧ c = []) := by
  simp [mtch, Prod.mk.injEq, and_assoc]

theorem mem_repKsG {top lo k : Nat} : k ∈ repKsG top lo ↔ lo ≤ k ∧ k ≤ top := by
  simp only [repKsG, List.mem_map, List.mem_range]
  constructor
  · rintro ⟨i, hi, rfl⟩; omega
  · rintro ⟨h₁, h₂⟩; exact ⟨top - k, by omega, by omega⟩

theorem mem_repKsL {top lo k : Nat} : k ∈ repKsL top lo ↔ lo ≤ k ∧ k ≤ top := by
  simp only [repKsL, List.mem_map, List.mem_range]
  constructor
  · rintro ⟨i, hi, rfl⟩; omega
  · rintro ⟨h₁, h₂⟩; exact ⟨k - lo, by omega, by omega⟩

theorem mem_repSplits {q : Char → Bool} {s p r : List Char} {c : Caps}
    {ks : List Nat} {lo top : Nat}
    (hks : ∀ k, k ∈ ks ↔ lo ≤ k ∧ k ≤ top) (htop : top ≤ (s.takeWhile q).length) :
    ((p, r, c) ∈ ks.map fun k => (s.take k, s.drop k, ([] : Caps))) ↔
      s = p ++ r ∧ p.all q ∧ lo ≤ p.length ∧ p.length ≤ top ∧ c = [] := by
  simp only [List.mem_map]
  constructor
  · rintro ⟨k, hk, heq⟩
    rw [hks] at hk
    simp only [Prod.mk.injEq] at heq
    obtain ⟨e₁, e₂, e₃⟩ := heq
    subst e₁; subst e₂; subst e₃
    have hkn : k ≤ s.length := le_trans (le_trans hk.2 htop) (length_takeWhile_le q s)
    refine ⟨(List.take_append_drop k s).symm, ?_, ?_, ?_, rfl⟩
    · exact all_take_of_le_takeWhile (le_trans hk.2 htop)
    · rw [List.length_take]; omega
    · rw [List.length_take]; omega
  · rintro ⟨hs, hall, hlo, hhi, rfl⟩
    refine ⟨p.length, (hks _).mpr ⟨hlo, hhi⟩, ?_⟩
    have h₁ : s.take p.length = p := by rw [hs]; exact List.take_left p r
    have h₂ : s.drop p.length = r := by rw [hs]; exact List.drop_left p r
    rw [h₁, h₂]

theorem mem_repG {q : Char → Bool} {lo : Nat} {hi : Option Nat}
    {s p r : List Char} {c : Caps} :
    (p, r, c) ∈ mtch (.repG q lo hi) s ↔
      s = p ++ r ∧ p.all q ∧ lo ≤ p.length ∧
        (∀ h, hi = some h → p.length ≤ h) ∧ c = [] := by
  cases hi with
  | none =>
      simp only [mtch]
      by_cases hle : lo ≤ (s.takeWhile q).length
      · rw [if_pos hle,
          mem_repSplits (fun k => mem_repKsG) (le_refl (s.takeWhile q).length)]
        constructor
        · rintro ⟨hs, hall, hlo, -, rfl⟩
          exact ⟨hs, hall, hlo, by rintro h ⟨⟩, rfl⟩
        · rintro ⟨hs, hall, hlo, -, rfl⟩
          exact ⟨hs, hall, hlo, takeWhile_length_ge hs hall, rfl⟩
      · rw [if_neg hle]
        simp only [List.not_mem_nil, false_iff]
        rintro ⟨hs, hall, hlo, -, -⟩
        exact hle (le_trans hlo (takeWhile_length_ge hs hall))
  | some hb =>
      simp only [mtch]
      by_cases hle : lo ≤ min (s.takeWhile q).length hb
      · rw [if_pos hle,
          mem_repSplits (fun k => mem_repKsG) (min_le_left (s.takeWhile q).length hb)]
        constructor
        · rintro ⟨hs, hall, hlo, hmin, rfl⟩
          refine ⟨hs, hall, hlo, ?_, rfl⟩
          rintro h ⟨⟩
          exact le_trans hmin (min_le_right _ _)
        · rintro ⟨hs, hall, hlo, hhi, rfl⟩
          exact ⟨hs, hall, hlo,
            le_min (takeWhile_length_ge hs hall) (hhi hb rfl), rfl⟩
      · rw [if_neg hle]
        simp only [List.not_mem_nil, false_iff]
        rintro ⟨hs, hall, hlo, hhi, -⟩
        exact hle (le_trans hlo
          (le_min (takeWhile_length_ge hs hall) (hhi hb rfl)))

theorem mem_repL {q : Char → Bool} {lo : Nat} {hi : Option Nat}
    {s p r : List Char} {c : Caps} :
    (p, r, c) ∈ mtch (.repL q lo hi) s ↔
      s = p ++ r ∧ p.all q ∧ lo ≤ p.length ∧
        (∀ h, hi = some h → p.length ≤ h) ∧ c = [] := by
  cases hi with
  | none =>
      simp only [mtch]
      by_cases hle : lo ≤ (s.takeWhile q).length
      · rw [if_pos hle,
          mem_repSplits (fun k => mem_repKsL) (le_refl (s.takeWhile q).length)]
        constructor
        · rintro ⟨hs, hall, hlo, -, rfl⟩
          exact ⟨hs, hall, hlo, by rintro h ⟨⟩, rfl⟩
        · rintro ⟨hs, hall, hlo, -, rfl⟩
          exact ⟨hs, hall, hlo, takeWhile_length_ge hs hall, rfl⟩
      · rw [if_neg hle]
        simp only [List.not_mem_nil, false_iff]
        rintro ⟨hs, hall, hlo, -, -⟩
        exact hle (le_trans hlo (takeWhile_length_ge hs hall))
  | some hb =>
      simp only [mtch]
      by_cases hle : lo ≤ min (s.takeWhile q).length hb
      · rw [if_pos hle,
          mem_repSplits (fun k => mem_repKsL) (min_le_left (s.takeWhile q).length hb)]
        constructor
        · rintro ⟨hs, hall, hlo, hmin, rfl⟩
          refine ⟨hs, hall, hlo, ?_, rfl⟩
          rintro h ⟨⟩
          exact le_trans hmin (min_le_right _ _)
        · rintro ⟨hs, hall, hlo, hhi, rfl⟩
          exact ⟨hs, hall, hlo,
            le_min (takeWhile_length_ge hs hall) (hhi hb rfl), rfl⟩
      · rw [if_neg hle]
        simp only [List.not_mem_nil, false_iff]
        rintro ⟨hs, hall, hlo, hhi, -⟩
        exact hle (le_trans hlo
          (le_min (takeWhile_length_ge hs hall) (hhi hb rfl)))

/-! ### From `reMatch` to matcher membership and back -/

theorem reMatch_none_iff {e : RE} {s : List Char} :
    reMatch e s = none ↔ mtch e s = [] := by
  unfold reMatch
  cases h : mtch e s <;> simp [h]

theorem reMatch_some_mem {e : RE} {s : List Char} {m : Caps}
    (h : reMatch e s = some m) : ∃ p r, (p, r, m) ∈ mtch e s := by
  unfold reMatch at h
  cases hm : mtch e s with
  | nil => rw [hm] at h; simp at h
  | cons x xs =>
      rw [hm] at h
      simp at h
      refine ⟨x.1, x.2.1, ?_⟩
      have hx : x = (x.1, x.2.1, m) := by rw [← h]
      rw [← hx]
      exact List.mem_cons_self x xs

theorem reMatch_isSome_of_mem {e : RE} {s p r : List Char} {c : Caps}
    (h : (p, r, c) ∈ mtch e s) : reMatch e s ≠ none := by
  intro hn
  rw [reMatch_none_iff] at hn
  rw [hn] at h
  exact List.not_mem_nil _ h

/-! ### Structural anchors of the five grammars -/

theorem header_starts {s : List Char} (h : mtch PO_HEADER s ≠ []) :
    ∃ t, s = '4' :: '5' :: '0' :: '0' :: t := by
  obtain ⟨⟨p, r, c⟩, hm⟩ := List.exists_mem_of_ne_nil _ h
  unfold PO_HEADER at hm
  rw [mem_cat] at hm
  obtain ⟨p₁, r₁, c₁, p₂, c₂, h₁, -, -, -⟩ := hm
  rw [mem_grp] at h₁
  obtain ⟨c', h₁, -⟩ := h₁
  rw [mem_cat] at h₁
  obtain ⟨q₁, t₁, d₁, q₂, d₂, hl, -, -, -⟩ := h₁
  rw [mem_lit] at hl
  exact ⟨t₁, hl.2.2⟩

theorem lineitem_starts {s : List Char} (h : mtch LINE_ITEM s ≠ []) :
    ∃ d t, s = '0' :: d :: t ∧ digC d = true := by
  obtain ⟨⟨p, r, c⟩, hm⟩ := List.exists_mem_of_ne_nil _ h
  unfold LINE_ITEM at hm
  rw [mem_cat] at hm
  obtain ⟨p₁, r₁, c₁, p₂, c₂, h₁, -, -, -⟩ := hm
  rw [mem_grp] at h₁
  obtain ⟨c', h₁, -⟩ := h₁
  rw [mem_cat] at h₁
  obtain ⟨q₁, t₁, d₁, q₂, d₂, hl, hrep, -, -⟩ := h₁
  rw [mem_lit] at hl
  obtain ⟨-, -, hs⟩ := hl
  unfold rxRep at hrep
  rw [mem_repG] at hrep
  obtain ⟨ht, hall, hlo, -, -⟩ := hrep
  cases hq : q₂ with
  | nil => rw [hq] at hlo; simp at hlo
  | cons d ds =>
      rw [hq] at ht hall
      simp only [List.all_cons, Bool.and_eq_true] at hall
      exact ⟨d, ds ++ r₁, by rw [hs, ht]; rfl, hall.1⟩

theorem account_starts {s : List Char} (h : mtch ACCOUNT_LINE s ≠ []) :
    (∃ t, s = 'L' :: t) ∨ (∃ t, s = 'B' :: t) ∨
      (∃ d w t, s = d :: w :: t ∧ digC d = true ∧ wsC w = true) := by
  obtain ⟨⟨p, r, c⟩, hm⟩ := List.exists_mem_of_ne_nil _ h
  unfold ACCOUNT_LINE at hm
  rw [mem_cat] at hm
  obtain ⟨p₁, r₁, c₁, p₂, c₂, h₁, h₂, -, -⟩ := hm
  rw [mem_opt] at h₁
  rcases h₁ with h₁ | ⟨rfl, rfl, rfl⟩
  · -- leading `L ` flag
    rw [mem_cat] at h₁
    obtain ⟨q₁, t₁, d₁, q₂, d₂, hl, -, -, -⟩ := h₁
    rw [mem_lit] at hl
    exact Or.inl ⟨t₁, hl.2.2⟩
  · rw [mem_cat] at h₂
    obtain ⟨p₁, r₁, c₁, p₂', c₂', h₁, h₂, -, -⟩ := h₂
    rw [mem_opt] at h₁
    rcases h₁ with h₁ | ⟨rfl, rfl, rfl⟩
    · -- leading `B ` flag
      rw [mem_cat] at h₁
      obtain ⟨q₁, t₁, d₁, q₂, d₂, hl, -, -, -⟩ := h₁
      rw [mem_lit] at hl
      exact Or.inr (Or.inl ⟨t₁, hl.2.2⟩)
    · -- a digit then whitespace
      rw [mem_cat] at h₂
      obtain ⟨p₁, r₁, c₁, p₂'', c₂'', h₁, h₂, -, -⟩ := h₂
      rw [mem_grp] at h₁
      obtain ⟨c', h₁, -⟩ := h₁
      rw [mem_cls] at h₁
      obtain ⟨d, hd, rfl, rfl, hs⟩ := h₁
      rw [mem_cat] at h₂
      obtain ⟨q₁, t₁, d₁, q₂, d₂, hws, -, -, -⟩ := h₂
      unfold wsP at hws
      rw [mem_repG] at hws
      obtain ⟨ht, hall, hlo, -, -⟩ := hws
      cases hq : q₁ with
      | nil => rw [hq] at hlo; simp at hlo
      | cons w ws =>
          rw [hq] at ht hall
          simp only [List.all_cons, Bool.and_eq_true] at hall
          exact Or.inr (Or.inr ⟨d, w, ws ++ t₁, by rw [hs, ht]; rfl, hd, hall.1⟩)

theorem invoiced_starts {s : List Char} (h : mtch INVOICED s ≠ []) :
    ∃ t, s = 'S' :: t := by
  obtain ⟨⟨p, r, c⟩, hm⟩ := List.exists_mem_of_ne_nil _ h
  unfold INVOICED at hm
  rw [mem_cat] at hm
  obtain ⟨p₁, r₁, c₁, p₂, c₂, h₁, -, -, -⟩ := hm
  rw [mem_lit] at h₁
  exact ⟨"till to be invoiced".data ++ r₁, h₁.2.2⟩

theorem zero_starts {s : List Char} (h : mtch INVOICED_ZERO s ≠ []) :
    ∃ t, s = 'S' :: t := by
  obtain ⟨⟨p, r, c⟩, hm⟩ := List.exists_mem_of_ne_nil _ h
  unfold INVOICED_ZERO at hm
  rw [mem_cat] at hm
  obtain ⟨p₁, r₁, c₁, p₂, c₂, h₁, -, -, -⟩ := hm
  rw [mem_lit] at h₁
  exact ⟨"till to be invoiced".data ++ r₁, h₁.2.2⟩

/-! ### Pairwise exclusivity of the structural anchors -/

theorem wsC_not_digC {c : Char} (h : wsC c = true) : digC c = false := by
  simp only [wsC, Bool.or_eq_true, decide_eq_true_eq] at h
  rcases h with rfl | rfl <;> decide

theorem header_excl_lineitem {s : List Char} (h : mtch PO_HEADER s ≠ []) :
    mtch LINE_ITEM s = [] := by
  by_contra hne
  obtain ⟨t, hs⟩ := header_starts h
  obtain ⟨d, t', hs', -⟩ := lineitem_starts hne
  rw [hs] at hs'
  injection hs' with h₁ hTail
  exact absurd h₁ (by decide)

theorem header_excl_account {s : List Char} (h : mtch PO_HEADER s ≠ []) :
    mtch ACCOUNT_LINE s = [] := by
  by_contra hne
  obtain ⟨t, hs⟩ := header_starts h
  rcases account_starts hne with ⟨t', hs'⟩ | ⟨t', hs'⟩ | ⟨d, w, t', hs', -, hw⟩
  · rw [hs] at hs'; injection hs' with h₁ hTail; exact absurd h₁ (by decide)
  · rw [hs] at hs'; injection hs' with h₁ hTail; exact absurd h₁ (by decide)
  · rw [hs] at hs'
    injection hs' with h₁ h₂
    injection h₂ with h₃ hTail₂
    rw [← h₃] at hw
    exact absurd hw (by decide)

theorem header_excl_invoiced {s : List Char} (h : mtch PO_HEADER s ≠ []) :
    mtch INVOICED s = [] := by
  by_contra hne
  obtain ⟨t, hs⟩ := header_starts h
  obtain ⟨t', hs'⟩ := invoiced_starts hne
  rw [hs] at hs'
  injection hs' with h₁ hTail
  exact absurd h₁ (by decide)

theorem header_excl_zero {s : List Char} (h : mtch PO_HEADER s ≠ []) :
    mtch INVOICED_ZERO s = [] := by
  by_contra hne
  obtain ⟨t, hs⟩ := header_starts h
  obtain ⟨t', hs'⟩ := zero_starts hne
  rw [hs] at hs'
  injection hs' with h₁ hTail
  exact absurd h₁ (by decide)

theorem lineitem_excl_account {s : List Char} (h : mtch LINE_ITEM s ≠ []) :
    mtch ACCOUNT_LINE s = [] := by
  by_contra hne
  obtain ⟨d, t, hs, hd⟩ := lineitem_starts h
  rcases account_starts hne with ⟨t', hs'⟩ | ⟨t', hs'⟩ | ⟨d', w, t', hs', -, hw⟩
  · rw [hs] at hs'; injection hs' with h₁ hTail; exact absurd h₁ (by decide)
  · rw [hs] at hs'; injection hs' with h₁ hTail; exact absurd h₁ (by decide)
  · rw [hs] at hs'
    injection hs' with hHead h₂
    injection h₂ with h₃ hTail₂
    rw [← h₃] at hw
    rw [wsC_not_digC hw] at hd
    exact absurd hd (by decide)

theorem lineitem_excl_invoiced {s : List Char} (h : mtch LINE_ITEM s ≠ []) :
    mtch INVOICED s = [] := by
  by_contra hne
  obtain ⟨d, t, hs, -⟩ := lineitem_starts h
  obtain ⟨t', hs'⟩ := invoiced_starts hne
  rw [hs] at hs'
  injection hs' with h₁ hTail
  exact absurd h₁ (by decide)

theorem lineitem_excl_zero {s : List Char} (h : mtch LINE_ITEM s ≠ []) :
    mtch INVOICED_ZERO s = [] := by
  by_contra hne
  obtain ⟨d, t, hs, -⟩ := lineitem_starts h
  obtain ⟨t', hs'⟩ := zero_starts hne
  rw [hs] at hs'
  injection hs' with h₁ hTail
  exact absurd h₁ (by decide)

theorem account_excl_invoiced {s : List Char} (h : mtch ACCOUNT_LINE s ≠ []) :
    mtch INVOICED s = [] := by
  by_contra hne
  obtain ⟨t', hs'⟩ := invoiced_starts hne
  rcases account_starts h with ⟨t, hs⟩ | ⟨t, hs⟩ | ⟨d, w, t, hs, hd, -⟩
  · rw [hs] at hs'; injection hs' with h₁ hTail; exact absurd h₁ (by decide)
  · rw [hs] at hs'; injection hs' with h₁ hTail; exact absurd h₁ (by decide)
  · rw [hs] at hs'
    injection hs' with h₁ hTail
    rw [h₁] at hd
    exact absurd hd (by decide)

theorem account_excl_zero {s : List Char} (h : mtch ACCOUNT_LINE s ≠ []) :
    mtch INVOICED_ZERO s = [] := by
  by_contra hne
  obtain ⟨t', hs'⟩ := zero_starts hne
  rcases account_starts h with ⟨t, hs⟩ | ⟨t, hs⟩ | ⟨d, w, t, hs, hd, -⟩
  · rw [hs] at hs'; injection hs' with h₁ hTail; exact absurd h₁ (by decide)
  · rw [hs] at hs'; injection hs' with h₁ hTail; exact absurd h₁ (by decide)
  · rw [hs] at hs'
    injection hs' with h₁ hTail
    rw [h₁] at hd
    exact absurd hd (by decide)

theorem lineitem_excl_header {s : List Char} (h : mtch LINE_ITEM s ≠ []) :
    mtch PO_HEADER s = [] := by
  by_contra hne
  exact h (header_excl_lineitem hne)

theorem account_excl_header {s : List Char} (h : mtch ACCOUNT_LINE s ≠ []) :
    mtch PO_HEADER s = [] := by
  by_contra hne
  exact h (header_excl_account hne)

theorem account_excl_lineitem {s : List Char} (h : mtch ACCOUNT_LINE s ≠ []) :
    mtch LINE_ITEM s = [] := by
  by_contra hne
  exact h (lineitem_excl_account hne)

theorem invoiced_excl_header {s : List Char} (h : mtch INVOICED s ≠ []) :
    mtch PO_HEADER s = [] := by
  by_contra hne
  exact h (header_excl_invoiced hne)

theorem invoiced_excl_lineitem {s : List Char} (h : mtch INVOICED s ≠ []) :
    mtch LINE_ITEM s = [] := by
  by_contra hne
  exact h (lineitem_excl_invoiced hne)

theorem invoiced_excl_account {s : List Char} (h : mtch INVOICED s ≠ []) :
    mtch ACCOUNT_LINE s = [] := by
  by_contra hne
  exact h (account_excl_invoiced hne)

theorem zero_excl_header {s : List Char} (h : mtch INVOICED_ZERO s ≠ []) :
    mtch PO_HEADER s = [] := by
  by_contra hne
  exact h (header_excl_zero hne)

theorem zero_excl_lineitem {s : List Char} (h : mtch INVOICED_ZERO s ≠ []) :
    mtch LINE_ITEM s = [] := by
  by_contra hne
  exact h (lineitem_excl_zero hne)

theorem zero_excl_account {s : List Char} (h : mtch INVOICED_ZERO s ≠ []) :
    mtch ACCOUNT_LINE s = [] := by
  by_contra hne
  exact h (account_excl_zero hne)

/-! ### Every `INVOICED_ZERO` match is an `INVOICED` match -/

theorem zero_subset_invoiced {s : List Char} (h : mtch INVOICED_ZERO s ≠ []) :
    mtch INVOICED s ≠ [] := by
  obtain ⟨⟨p, r, c⟩, hm⟩ := List.exists_mem_of_ne_nil _ h
  unfold INVOICED_ZERO at hm
  rw [mem_cat] at hm
  obtain ⟨pS, r1, cS, pA, cA, hS, hm, -, -⟩ := hm
  rw [mem_cat] at hm
  obtain ⟨w1, r2, cw1, pB, cB, hw1, hm, -, -⟩ := hm
  rw [mem_cat] at hm
  obtain ⟨q1, r3, cq1, pC, cC, hq, hm, -, -⟩ := hm
  rw [mem_cat] at hm
  obtain ⟨w2, r4, cw2, pD, cD, hw2, hm, -, -⟩ := hm
  rw [mem_cat] at hm
  obtain ⟨pu, r5, cu, pE, cE, hu, hm, -, -⟩ := hm
  rw [mem_cat] at hm
  obtain ⟨w3, r6, cw3, pF, cF, hw3, hm, -, -⟩ := hm
  rw [mem_cat] at hm
  obtain ⟨z1, r7, cz1, pG, cG, hz1, hm, -, -⟩ := hm
  rw [mem_cat] at hm
  obtain ⟨w4, r8, cw4, pH, cH, hw4, hm, -, -⟩ := hm
  rw [mem_cat] at hm
  obtain ⟨pusd, r9, cusd, pI, cI, husd, hm, -, -⟩ := hm
  rw [mem_cat] at hm
  obtain ⟨w5, r10, cw5, pJ, cJ, hw5, hm, -, -⟩ := hm
  rw [mem_cat] at hm
  obtain ⟨z2, r11, cz2, pK, cK, hz2, hm, -, -⟩ := hm
  have hz1e : r6 = "0.00".data ++ r7 := (mem_lit.mp hz1).2.2
  have hz2e : r10 = "0.00".data ++ r11 := (mem_lit.mp hz2).2.2
  -- build an `INVOICED` match from the same pieces, with quantity the `[OQ]+`
  -- run, amount `0.00`, percent `0`
  have hamt : (('0' :: '.' :: '0' :: '0' :: []), r7, ([] : Caps)) ∈ mtch amountRE r6 := by
    refine mem_cat.mpr ⟨['0'], '.' :: '0' :: '0' :: r7, [], _, _, ?_, ?_, rfl, rfl⟩
    · exact mem_repG.mpr ⟨hz1e, by decide, by decide, by rintro a ⟨⟩, rfl⟩
    · refine mem_cat.mpr ⟨".".data, '0' :: '0' :: r7, [], _, _, ?_, ?_, rfl, rfl⟩
      · exact mem_lit.mpr ⟨rfl, rfl, rfl⟩
      · exact mem_repG.mpr ⟨rfl, by decide, by decide,
          by intro a ha; cases ha; decide, rfl⟩
  have hpct : ((['0'] : List Char), '.' :: '0' :: '0' :: r11, ([] : Caps)) ∈
      mtch (.repG digDotC 1 none) r10 :=
    mem_repG.mpr ⟨hz2e, by decide, by decide, by rintro a ⟨⟩, rfl⟩
  -- assemble the `INVOICED` match from the tail inwards
  have t12 : ∃ x, x ∈ mtch (.cat wsS (.repG pctC 0 none)) ('.' :: '0' :: '0' :: r11) :=
    ⟨_, mem_cat.mpr ⟨[], '.' :: '0' :: '0' :: r11, [], [], [],
      mem_repG.mpr ⟨rfl, by decide, by decide, by rintro a ⟨⟩, rfl⟩,
      mem_repG.mpr ⟨rfl, by decide, by decide, by rintro a ⟨⟩, rfl⟩, rfl, rfl⟩⟩
  obtain ⟨⟨p12, q12, c12⟩, h12⟩ := t12
  have t11 : ∃ x, x ∈ mtch (.cat (.grp 3 (.repG digDotC 1 none))
      (.cat wsS (.repG pctC 0 none))) r10 :=
    ⟨_, mem_cat.mpr ⟨_, _, _, _, _, mem_grp.mpr ⟨_, hpct, rfl⟩, h12, rfl, rfl⟩⟩
  obtain ⟨⟨p11, q11, c11⟩, h11⟩ := t11
  have t10 : ∃ x, x ∈ mtch (.cat wsP (.cat (.grp 3 (.repG digDotC 1 none))
      (.cat wsS (.repG pctC 0 none)))) r9 :=
    ⟨_, mem_cat.mpr ⟨_, _, _, _, _, hw5, h11, rfl, rfl⟩⟩
  obtain ⟨⟨p10, q10, c10⟩, h10⟩ := t10
  have t9 : ∃ x, x ∈ mtch (.cat (.lit "USD".data) (.cat wsP
      (.cat (.grp 3 (.repG digDotC 1 none)) (.cat wsS (.repG pctC 0 none))))) r8 :=
    ⟨_, mem_cat.mpr ⟨_, _, _, _, _, husd, h10, rfl, rfl⟩⟩
  obtain ⟨⟨p9, q9, c9⟩, h9⟩ := t9
  have t8 : ∃ x, x ∈ mtch (.cat wsP (.cat (.lit "USD".data) (.cat wsP
      (.cat (.grp 3 (.repG digDotC 1 none)) (.cat wsS (.repG pctC 0 none)))))) r7 :=
    ⟨_, mem_cat.mpr ⟨_, _, _, _, _, hw4, h9, rfl, rfl⟩⟩
  obtain ⟨⟨p8, q8, c8⟩, h8⟩ := t8
  have t7 : ∃ x, x ∈ mtch (.cat (.grp 2 amountRE) (.cat wsP (.cat (.lit "USD".data)
      (.cat wsP (.cat (.grp 3 (.repG digDotC 1 none))
        (.cat wsS (.repG pctC 0 none))))))) r6 :=
    ⟨_, mem_cat.mpr ⟨_, _, _, _, _, mem_grp.mpr ⟨_, hamt, rfl⟩, h8, rfl, rfl⟩⟩
  obtain ⟨⟨p7, q7, c7⟩, h7⟩ := t7
  have t6 : ∃ x, x ∈ mtch (.cat wsP (.cat (.grp 2 amountRE) (.cat wsP
      (.cat (.lit "USD".data) (.cat wsP (.cat (.grp 3 (.repG digDotC 1 none))
        (.cat wsS (.repG pctC 0 none)))))))) r5 :=
    ⟨_, mem_cat.mpr ⟨_, _, _, _, _, hw3, h7, rfl, rfl⟩⟩
  obtain ⟨⟨p6, q6, c6⟩, h6⟩ := t6
  have t5 : ∃ x, x ∈ mtch (.cat unitRE (.cat wsP (.cat (.grp 2 amountRE)
      (.cat wsP (.cat (.lit "USD".data) (.cat wsP
        (.cat (.grp 3 (.repG digDotC 1 none)) (.cat wsS (.repG pctC 0 none))))))))) r4 :=
    ⟨_, mem_cat.mpr ⟨_, _, _, _, _, hu, h6, rfl, rfl⟩⟩
  obtain ⟨⟨p5, q5, c5⟩, h5⟩ := t5
  have t4 : ∃ x, x ∈ mtch (.cat wsP (.cat unitRE (.cat wsP (.cat (.grp 2 amountRE)
      (.cat wsP (.cat (.lit "USD".data) (.cat wsP
        (.cat (.grp 3 (.repG digDotC 1 none)) (.cat wsS (.repG pctC 0 none)))))))))) r3 :=
    ⟨_, mem_cat.mpr ⟨_, _, _, _, _, hw2, h5, rfl, rfl⟩⟩
  obtain ⟨⟨p4, q4, c4⟩, h4⟩ := t4
  have t3 : ∃ x, x ∈ mtch (.cat (.grp 1 (.alt (.repG digC 1 none) (.repG oqC 1 none)))
      (.cat wsP (.cat unitRE (.cat wsP (.cat (.grp 2 amountRE)
        (.cat wsP (.cat (.lit "USD".data) (.cat wsP
          (.cat (.grp 3 (.repG digDotC 1 none)) (.cat wsS (.repG pctC 0 none))))))))))) r2 :=
    ⟨_, mem_cat.mpr ⟨_, _, _, _, _,
      mem_grp.mpr ⟨_, mem_alt.mpr (Or.inr hq), rfl⟩, h4, rfl, rfl⟩⟩
  obtain ⟨⟨p3, q3, c3⟩, h3⟩ := t3
  have t2 : ∃ x, x ∈ mtch (.cat wsP
      (.cat (.grp 1 (.alt (.repG digC 1 none) (.repG oqC 1 none)))
      (.cat wsP (.cat unitRE (.cat wsP (.cat (.grp 2 amountRE)
        (.cat wsP (.cat (.lit "USD".data) (.cat wsP
          (.cat (.grp 3 (.repG digDotC 1 none)) (.cat wsS (.repG pctC 0 none)))))))))))) r1 :=
    ⟨_, mem_cat.mpr ⟨_, _, _, _, _, hw1, h3, rfl, rfl⟩⟩
  obtain ⟨⟨p2, q2, c2⟩, h2⟩ := t2
  have t1 : ∃ x, x ∈ mtch INVOICED s := by
    unfold INVOICED
    exact ⟨_, mem_cat.mpr ⟨_, _, _, _, _, hS, h2, rfl, rfl⟩⟩
  obtain ⟨x, hx⟩ := t1
  exact List.ne_nil_of_mem hx

/-! ### Amount captures always parse (`parse_amount` cannot raise) -/

theorem takeWhile_append_stop {q : Char → Bool} :
    ∀ {a : List Char} {ch : Char} {b : List Char}, a.all q = true → q ch = false →
      (a ++ ch :: b).takeWhile q = a := by
  intro a
  induction a with
  | nil =>
      intro ch b _ hch
      simp [List.takeWhile_cons, hch]
  | cons x xs ih =>
      intro ch b hall hch
      simp only [List.all_cons, Bool.and_eq_true] at hall
      simp only [List.cons_append, List.takeWhile_cons, hall.1, if_true]
      rw [ih hall.2 hch]

theorem ne_nil_of_one_le_length {l : List Char} (h : 1 ≤ l.length) : l ≠ [] := by
  cases l with
  | nil => simp at h
  | cons x xs => simp

theorem digC_not_comma {c : Char} (h : digC c = true) : decide (c = ',') = false := by
  cases hc : decide (c = ',')
  · rfl
  · rw [decide_eq_true_eq] at hc
    subst hc
    exact absurd h (by decide)

theorem stripCommas_all_digC {w : List Char} (h : w.all digCommaC = true) :
    (stripCommas w).all digC = true := by
  rw [List.all_eq_true]
  intro x hx
  rw [stripCommas, List.mem_filter] at hx
  rw [List.all_eq_true] at h
  have hd := h x hx.1
  have hne := hx.2
  simp only [Bool.not_eq_true', decide_eq_false_iff_not] at hne
  simp only [digCommaC, Bool.or_eq_true, decide_eq_true_eq] at hd
  rcases hd with hd | hd
  · exact hd
  · exact absurd hd hne

theorem stripCommas_of_all_digC {w : List Char} (h : w.all digC = true) :
    stripCommas w = w := by
  rw [stripCommas, List.filter_eq_self]
  intro a ha
  rw [List.all_eq_true] at h
  have hd := digC_not_comma (h a ha)
  simp [hd]

theorem pyFloat_decimal {a b : List Char} (ha : a.all digC = true)
    (hb : b.all digC = true) (hbne : b ≠ []) :
    pyFloat (a ++ '.' :: b) =
      some ((digitsToNat a : ℚ) + (digitsToNat b : ℚ) / (10 ^ b.length : ℚ)) := by
  have h1 : (a ++ '.' :: b).takeWhile digC = a := takeWhile_append_stop ha (by decide)
  simp only [pyFloat, h1]
  rw [List.drop_left]
  cases b with
  | nil => exact absurd rfl hbne
  | cons x xs => simp [hb]

theorem parse_amount_of_amountShape {w : List Char} (h : amountShape w) :
    ∃ v, parse_amount w = some v := by
  obtain ⟨w₁, w₂, rfl, -, h2, h3, h4⟩ := h
  unfold parse_amount
  have hsplit : stripCommas (w₁ ++ '.' :: w₂) = stripCommas w₁ ++ '.' :: w₂ := by
    unfold stripCommas
    rw [List.filter_append, List.filter_cons]
    simp only [show (!('.' = ',' : Prop)) = true from by decide, if_true]
    rw [show List.filter (fun c => !(c = ',')) w₂ = w₂ from stripCommas_of_all_digC h4]
  rw [hsplit, pyFloat_decimal (stripCommas_all_digC h2) h4 h3]
  exact ⟨_, rfl⟩

/-! ### Captures of full `ACCOUNT_LINE` and `INVOICED` matches -/

theorem caps_of_lit {w s p r : List Char} {c : Caps}
    (h : (p, r, c) ∈ mtch (.lit w) s) : c = [] := (mem_lit.mp h).2.1

theorem caps_of_repG {q : Char → Bool} {lo : Nat} {hi : Option Nat}
    {s p r : List Char} {c : Caps}
    (h : (p, r, c) ∈ mtch (.repG q lo hi) s) : c = [] := (mem_repG.mp h).2.2.2.2

theorem caps_of_unit {s p r : List Char} {c : Caps}
    (h : (p, r, c) ∈ mtch unitRE s) : c = [] := by
  unfold unitRE at h
  rw [mem_alt] at h
  rcases h with h | h
  · exact caps_of_lit h
  · rw [mem_alt] at h
    rcases h with h | h
    · exact caps_of_lit h
    · exact caps_of_lit h

theorem caps_of_flag {w s p r : List Char} {c : Caps}
    (h : (p, r, c) ∈ mtch (.opt (.cat (.lit w) wsP)) s) : c = [] := by
  rw [mem_opt] at h
  rcases h with h | ⟨-, -, rfl⟩
  · rw [mem_cat] at h
    obtain ⟨p₁, r₁, c₁, p₂, c₂, h₁, h₂, -, rfl⟩ := h
    rw [caps_of_lit h₁, caps_of_repG h₂]
    rfl
  · rfl

theorem amountShape_of_mem {s p r : List Char} {c : Caps}
    (h : (p, r, c) ∈ mtch amountRE s) : amountShape p := by
  unfold amountRE at h
  rw [mem_cat] at h
  obtain ⟨pa, r₁, c₁, pb, c₂, h₁, h₂, rfl, -⟩ := h
  rw [mem_cat] at h₂
  obtain ⟨pd, r₂, c₃, pe, c₄, h₃, h₄, rfl, -⟩ := h₂
  rw [mem_lit] at h₃
  obtain ⟨rfl, -, -⟩ := h₃
  unfold rxRep at h₄
  rw [mem_repG] at h₄
  obtain ⟨-, hall₂, hlo₂, -, -⟩ := h₄
  rw [mem_repG] at h₁
  obtain ⟨-, hall₁, hlo₁, -, -⟩ := h₁
  exact ⟨pa, pe, rfl, ne_nil_of_one_le_length hlo₁, hall₁,
    ne_nil_of_one_le_length (by omega), hall₂⟩

theorem account_grp4 {s p r : List Char} {c : Caps}
    (hm : (p, r, c) ∈ mtch ACCOUNT_LINE s) :
    ∃ w, grpGet c 4 = some w ∧ amountShape w := by
  unfold ACCOUNT_LINE at hm
  rw [mem_cat] at hm
  obtain ⟨pL, r1, cL, pA, cA, hL, hm, -, rfl⟩ := hm
  rw [mem_cat] at hm
  obtain ⟨pB, r2, cB, pC, cC, hB, hm, -, rfl⟩ := hm
  rw [mem_cat] at hm
  obtain ⟨p1, r3, c1, pD, cD, h1, hm, -, rfl⟩ := hm
  rw [mem_cat] at hm
  obtain ⟨pw1, r4, cw1, pE, cE, hw1, hm, -, rfl⟩ := hm
  rw [mem_cat] at hm
  obtain ⟨p2, r5, c2, pF, cF, h2, hm, -, rfl⟩ := hm
  rw [mem_cat] at hm
  obtain ⟨pw2, r6, cw2, pG, cG, hw2, hm, -, rfl⟩ := hm
  rw [mem_cat] at hm
  obtain ⟨p3, r7, c3, pH, cH, h3, hm, -, rfl⟩ := hm
  rw [mem_cat] at hm
  obtain ⟨pw3, r8, cw3, pI, cI, hw3, hm, -, rfl⟩ := hm
  rw [mem_cat] at hm
  obtain ⟨pq, r9, cq, pJ, cJ, hq, hm, -, rfl⟩ := hm
  rw [mem_cat] at hm
  obtain ⟨pw4, r10, cw4, pK, cK, hw4, hm, -, rfl⟩ := hm
  rw [mem_cat] at hm
  obtain ⟨puu, r11, cuu, pM, cM, huu, hm, -, rfl⟩ := hm
  rw [mem_cat] at hm
  obtain ⟨pw5, r12, cw5, pN, cN, hw5, hm, -, rfl⟩ := hm
  rw [mem_cat] at hm
  obtain ⟨p4, r13, c4, pO, cO, h4, hm, -, rfl⟩ := hm
  rw [mem_cat] at hm
  obtain ⟨pw6, r14, cw6, pP, cP, hw6, husd, -, rfl⟩ := hm
  -- caps of every non-group piece are empty
  rw [caps_of_flag hL, caps_of_flag hB, caps_of_repG hw1, caps_of_repG hw2,
    caps_of_repG hw3, caps_of_repG hq, caps_of_repG hw4, caps_of_unit huu,
    caps_of_repG hw5, caps_of_repG hw6, caps_of_lit husd]
  -- group 1 (the digit)
  rw [mem_grp] at h1
  obtain ⟨c1i, h1i, rfl⟩ := h1
  rw [mem_cls] at h1i
  obtain ⟨ch, -, -, rfl, -⟩ := h1i
  -- group 2 (the account letters)
  rw [mem_grp] at h2
  obtain ⟨c2i, h2i, rfl⟩ := h2
  rw [mem_cat] at h2i
  obtain ⟨pl₁, rr₁, cc₁, pl₂, cc₂, h2a, h2b, -, rfl⟩ := h2i
  rw [caps_of_repG h2a, caps_of_repG h2b]
  -- group 4 (the amount)
  rw [mem_grp] at h4
  obtain ⟨c4i, h4i, rfl⟩ := h4
  have hshape : amountShape p4 := amountShape_of_mem h4i
  unfold amountRE at h4i
  rw [mem_cat] at h4i
  obtain ⟨pa, ra, ca, pb, cb, h4a, h4b, -, rfl⟩ := h4i
  rw [mem_cat] at h4b
  obtain ⟨pc', rc', cc', pd', cd', h4c, h4d, -, rfl⟩ := h4b
  rw [caps_of_repG h4a, caps_of_lit h4c, caps_of_repG h4d]
  -- the optional sub-code group 3
  rw [mem_opt] at h3
  rcases h3 with h3 | ⟨-, -, rfl⟩
  · rw [mem_grp] at h3
    obtain ⟨c3i, h3i, rfl⟩ := h3
    unfold rxRep at h3i
    rw [caps_of_repG h3i]
    exact ⟨p4, by simp [grpGet], hshape⟩
  · exact ⟨p4, by simp [grpGet], hshape⟩

theorem invoiced_grps {s p r : List Char} {c : Caps}
    (hm : (p, r, c) ∈ mtch INVOICED s) :
    ∃ w pc, grpGet c 2 = some w ∧ amountShape w ∧ grpGet c 3 = some pc := by
  unfold INVOICED at hm
  rw [mem_cat] at hm
  obtain ⟨pS, r1, cS, pA, cA, hS, hm, -, rfl⟩ := hm
  rw [mem_cat] at hm
  obtain ⟨pw1, r2, cw1, pB, cB, hw1, hm, -, rfl⟩ := hm
  rw [mem_cat] at hm
  obtain ⟨p1, r3, c1, pC, cC, h1, hm, -, rfl⟩ := hm
  rw [mem_cat] at hm
  obtain ⟨pw2, r4, cw2, pD, cD, hw2, hm, -, rfl⟩ := hm
  rw [mem_cat] at hm
  obtain ⟨pu, r5, cu, pE, cE, hu, hm, -, rfl⟩ := hm
  rw [mem_cat] at hm
  obtain ⟨pw3, r6, cw3, pF, cF, hw3, hm, -, rfl⟩ := hm
  rw [mem_cat] at hm
  obtain ⟨p2, r7, c2, pG, cG, h2, hm, -, rfl⟩ := hm
  rw [mem_cat] at hm
  obtain ⟨pw4, r8, cw4, pH, cH, hw4, hm, -, rfl⟩ := hm
  rw [mem_cat] at hm
  obtain ⟨pusd, r9, cusd, pI, cI, husd, hm, -, rfl⟩ := hm
  rw [mem_cat] at hm
  obtain ⟨pw5, r10, cw5, pJ, cJ, hw5, hm, -, rfl⟩ := hm
  rw [mem_cat] at hm
  obtain ⟨p3, r11, c3, pK, cK, h3, hm, -, rfl⟩ := hm
  rw [mem_cat] at hm
  obtain ⟨pw6, r12, cw6, pL, cL, hw6, hpc, -, rfl⟩ := hm
  rw [caps_of_lit hS, caps_of_repG hw1, caps_of_repG hw2, caps_of_unit hu,
    caps_of_repG hw3, caps_of_repG hw4, caps_of_lit husd, caps_of_repG hw5,
    caps_of_repG hw6, caps_of_repG hpc]
  -- group 1 (quantity)
  rw [mem_grp] at h1
  obtain ⟨c1i, h1i, rfl⟩ := h1
  have hc1i : c1i = [] := by
    rw [mem_alt] at h1i
    rcases h1i with h1i | h1i
    · exact caps_of_repG h1i
    · exact caps_of_repG h1i
  subst hc1i
  -- group 2 (amount)
  rw [mem_grp] at h2
  obtain ⟨c2i, h2i, rfl⟩ := h2
  have hshape : amountShape p2 := amountShape_of_mem h2i
  unfold amountRE at h2i
  rw [mem_cat] at h2i
  obtain ⟨pa, ra, ca, pb, cb, h2a, h2b, -, rfl⟩ := h2i
  rw [mem_cat] at h2b
  obtain ⟨pc', rc', cc', pd', cd', h2c, h2d, -, rfl⟩ := h2b
  rw [caps_of_repG h2a, caps_of_lit h2c, caps_of_repG h2d]
  -- group 3 (percent)
  rw [mem_grp] at h3
  obtain ⟨c3i, h3i, rfl⟩ := h3
  rw [caps_of_repG h3i]
  exact ⟨p2, p3, by simp [grpGet], hshape, by simp [grpGet]⟩

/-! ### Behaviour of `procLine`, branch by branch -/

theorem mtch_ne_nil_of_reMatch {e : RE} {s : List Char} {m : Caps}
    (h : reMatch e s = some m) : mtch e s ≠ [] := by
  intro hnil
  rw [← reMatch_none_iff] at hnil
  rw [hnil] at h
  cases h

theorem not_ee_of_head {c : Char} {t : List Char} (hc : ¬c = 'e') :
    "ee en ed".data.isPrefixOf (c :: t) = false := by
  show (('e' == c) && _) = false
  have : ('e' == c) = false := by
    cases h : 'e' == c
    · rfl
    · rw [beq_iff_eq] at h; exact absurd h.symm hc
  rw [this, Bool.false_and]

/-- A line matching `PO_HEADER` replaces the whole context dict: the six
header groups are stored and the `line_num`/`desc` keys disappear; `pending`
and `records` are untouched. -/
theorem procLine_header {f : String} {a : Nat} {st : PState} {raw : String} {m : Caps}
    (h : reMatch PO_HEADER (pyStripL raw.data) = some m) :
    procLine f a st raw = some { st with current := some (headerCtx m) } := by
  obtain ⟨t, hs⟩ := header_starts (mtch_ne_nil_of_reMatch h)
  have h1 : (pyStripL raw.data).isEmpty = false := by rw [hs]; rfl
  have h2 : "ee en ed".data.isPrefixOf (pyStripL raw.data) = false := by
    rw [hs]; exact not_ee_of_head (by decide)
  simp [procLine, h1, h2, Bool.or_self, if_false, h]

/-- A line matching `LINE_ITEM` updates `line_num`/`desc` when the context is
non-empty, and does nothing at all when it is empty (the `if m and current`
guard). -/
theorem procLine_lineitem {f : String} {a : Nat} {st : PState} {raw : String} {m : Caps}
    (h : reMatch LINE_ITEM (pyStripL raw.data) = some m) :
    procLine f a st raw = some { st with current := st.current.map fun ctx =>
      { ctx with lineNum := some (capStr m 1),
                 desc := some ⟨pyStripL ((grpGet m 2).getD [])⟩ } } := by
  have hne := mtch_ne_nil_of_reMatch h
  obtain ⟨d, t, hs, -⟩ := lineitem_starts hne
  have h1 : (pyStripL raw.data).isEmpty = false := by rw [hs]; rfl
  have h2 : "ee en ed".data.isPrefixOf (pyStripL raw.data) = false := by
    rw [hs]; exact not_ee_of_head (by decide)
  have hH : reMatch PO_HEADER (pyStripL raw.data) = none :=
    reMatch_none_iff.mpr (lineitem_excl_header hne)
  have hA : reMatch ACCOUNT_LINE (pyStripL raw.data) = none :=
    reMatch_none_iff.mpr (lineitem_excl_account hne)
  have hI : reMatch INVOICED (pyStripL raw.data) = none :=
    reMatch_none_iff.mpr (lineitem_excl_invoiced hne)
  have hZ : reMatch INVOICED_ZERO (pyStripL raw.data) = none :=
    reMatch_none_iff.mpr (lineitem_excl_zero hne)
  cases hc : st.current with
  | some ctx => simp [procLine, h1, h2, Bool.or_self, if_false, hH, h, hc, Option.map]
  | none =>
      simp [procLine, h1, h2, Bool.or_self, if_false, hH, h, hc, hA, hI, hZ, Option.map]
      cases st
      simp_all

/-- A line matching `ACCOUNT_LINE` builds a fresh pending record when the
context is non-empty (overwriting any open one), and does nothing when the
context is empty. -/
theorem procLine_account {f : String} {a : Nat} {st : PState} {raw : String}
    {m : Caps} {amt : ℚ}
    (h : reMatch ACCOUNT_LINE (pyStripL raw.data) = some m)
    (hamt : parse_amount ((grpGet m 4).getD []) = some amt) :
    procLine f a st raw = some (match st.current with
      | some ctx => { st with pending := some (mkPending f a ctx m amt) }
      | none => st) := by
  have hne := mtch_ne_nil_of_reMatch h
  have h12 : (pyStripL raw.data).isEmpty = false ∧
      "ee en ed".data.isPrefixOf (pyStripL raw.data) = false := by
    rcases account_starts hne with ⟨t, hs⟩ | ⟨t, hs⟩ | ⟨d, w, t, hs, hd, -⟩
    · rw [hs]; exact ⟨rfl, not_ee_of_head (by decide)⟩
    · rw [hs]; exact ⟨rfl, not_ee_of_head (by decide)⟩
    · rw [hs]
      refine ⟨rfl, not_ee_of_head ?_⟩
      intro hde
      rw [hde] at hd
      exact absurd hd (by decide)
  have hH : reMatch PO_HEADER (pyStripL raw.data) = none :=
    reMatch_none_iff.mpr (account_excl_header hne)
  have hL : reMatch LINE_ITEM (pyStripL raw.data) = none :=
    reMatch_none_iff.mpr (account_excl_lineitem hne)
  have hI : reMatch INVOICED (pyStripL raw.data) = none :=
    reMatch_none_iff.mpr (account_excl_invoiced hne)
  have hZ : reMatch INVOICED_ZERO (pyStripL raw.data) = none :=
    reMatch_none_iff.mpr (account_excl_zero hne)
  cases hc : st.current with
  | some ctx =>
      simp [procLine, h12.1, h12.2, Bool.or_self, if_false, hH, hL, h, hc, hamt]
  | none =>
      simp [procLine, h12.1, h12.2, Bool.or_self, if_false, hH, hL, h, hc, hI, hZ]

/-- A line matching `INVOICED`, with a pending record open: both numeric
fields are parsed and the record is closed and appended — unless the percent
capture fails to parse, in which case the whole parse raises. -/
theorem procLine_invoiced {f : String} {a : Nat} {st : PState} {raw : String}
    {m : Caps} {p : Pending}
    (h : reMatch INVOICED (pyStripL raw.data) = some m)
    (hp : st.pending = some p) :
    procLine f a st raw =
      match parse_amount ((grpGet m 2).getD []), pyFloat ((grpGet m 3).getD []) with
      | some a₂, some pc => some { st with
          pending := none,
          records := st.records ++ [closeRec p (.amt a₂) (.amt pc)] }
      | _, _ => none := by
  have hne := mtch_ne_nil_of_reMatch h
  obtain ⟨t, hs⟩ := invoiced_starts hne
  have h1 : (pyStripL raw.data).isEmpty = false := by rw [hs]; rfl
  have h2 : "ee en ed".data.isPrefixOf (pyStripL raw.data) = false := by
    rw [hs]; exact not_ee_of_head (by decide)
  have hH : reMatch PO_HEADER (pyStripL raw.data) = none :=
    reMatch_none_iff.mpr (invoiced_excl_header hne)
  have hL : reMatch LINE_ITEM (pyStripL raw.data) = none :=
    reMatch_none_iff.mpr (invoiced_excl_lineitem hne)
  have hA : reMatch ACCOUNT_LINE (pyStripL raw.data) = none :=
    reMatch_none_iff.mpr (invoiced_excl_account hne)
  simp [procLine, h1, h2, Bool.or_self, if_false, hH, hL, hA, h, hp]

/-- A line matching `INVOICED` with no pending record open is a no-op (and so
is the unreachable `INVOICED_ZERO` branch). -/
theorem procLine_invoiced_nopending {f : String} {a : Nat} {st : PState}
    {raw : String} {m : Caps}
    (h : reMatch INVOICED (pyStripL raw.data) = some m)
    (hp : st.pending = none) :
    procLine f a st raw = some st := by
  have hne := mtch_ne_nil_of_reMatch h
  obtain ⟨t, hs⟩ := invoiced_starts hne
  have h1 : (pyStripL raw.data).isEmpty = false := by rw [hs]; rfl
  have h2 : "ee en ed".data.isPrefixOf (pyStripL raw.data) = false := by
    rw [hs]; exact not_ee_of_head (by decide)
  have hH : reMatch PO_HEADER (pyStripL raw.data) = none :=
    reMatch_none_iff.mpr (invoiced_excl_header hne)
  have hL : reMatch LINE_ITEM (pyStripL raw.data) = none :=
    reMatch_none_iff.mpr (invoiced_excl_lineitem hne)
  have hA : reMatch ACCOUNT_LINE (pyStripL raw.data) = none :=
    reMatch_none_iff.mpr (invoiced_excl_account hne)
  cases hz : reMatch INVOICED_ZERO (pyStripL raw.data) with
  | none => simp [procLine, h1, h2, Bool.or_self, if_false, hH, hL, hA, h, hp, hz]
  | some mz => simp [procLine, h1, h2, Bool.or_self, if_false, hH, hL, hA, h, hp, hz]

/-- The only way the line processor can raise: an `INVOICED` match with a
pending record open whose percent capture `float` rejects.  Amount captures
always parse. -/
theorem procLine_none {f : String} {a : Nat} {st : PState} {raw : String}
    (h : procLine f a st raw = none) :
    ∃ m, reMatch INVOICED (pyStripL raw.data) = some m ∧ st.pending ≠ none ∧
      pyFloat ((grpGet m 3).getD []) = none := by
  unfold procLine at h
  dsimp only at h
  split at h
  · cases h
  · split at h
    · cases h
    · split at h
      · cases h
      · split at h
        · -- ACCOUNT_LINE matched with a context: the amount parse cannot fail
          rename_i m ctx hAm hctx
          split at h
          · rename_i hparse
            obtain ⟨p, r, hmem⟩ := reMatch_some_mem hAm
            obtain ⟨w, hw, hshape⟩ := account_grp4 hmem
            obtain ⟨v, hv⟩ := parse_amount_of_amountShape hshape
            rw [hw] at hparse
            simp only [Option.getD_some] at hparse
            rw [hparse] at hv
            cases hv
          · cases h
        · split at h
          · -- INVOICED matched with a pending record
            rename_i m p hIm hpend
            split at h
            · cases h
            · rename_i hnotboth
              obtain ⟨pp, rr, hmem⟩ := reMatch_some_mem hIm
              obtain ⟨w, pc, hw, hshape, hpc⟩ := invoiced_grps hmem
              obtain ⟨v, hv⟩ := parse_amount_of_amountShape hshape
              cases hq : pyFloat ((grpGet m 3).getD []) with
              | some q =>
                  exact (hnotboth v q (by rw [hw]; simpa using hv) hq).elim
              | none => exact ⟨m, hIm, by rw [hpend]; simp, hq⟩
          · split at h
            · cases h
            · cases h

/-- Every successful `procLine` step either leaves `pending` and `records`
unchanged, or opens a fresh pending record at the current absolute page, or
closes the open pending record and appends exactly it. -/
theorem procLine_cases {f : String} {a : Nat} {st : PState} {raw : String}
    {st' : PState} (h : procLine f a st raw = some st') :
    (st'.records = st.records ∧ st'.pending = st.pending) ∨
    (∃ ctx m amt, st.current = some ctx ∧ st'.records = st.records ∧
       st'.pending = some (mkPending f a ctx m amt)) ∨
    (∃ p v w, st.pending = some p ∧ st'.pending = none ∧
       st'.records = st.records ++ [closeRec p v w]) := by
  unfold procLine at h
  dsimp only at h
  split at h
  · cases h; exact Or.inl ⟨rfl, rfl⟩
  · split at h
    · cases h; exact Or.inl ⟨rfl, rfl⟩
    · split at h
      · cases h; exact Or.inl ⟨rfl, rfl⟩
      · split at h
        · rename_i m ctx hAm hctx
          split at h
          · cases h
          · rename_i amt hamt
            cases h
            exact Or.inr (Or.inl ⟨ctx, m, amt, hctx, rfl, rfl⟩)
        · split at h
          · rename_i m p hIm hpend
            split at h
            · rename_i a₂ pc heq1 heq2
              cases h
              exact Or.inr (Or.inr ⟨p, .amt a₂, .amt pc, hpend, rfl, rfl⟩)
            · cases h
          · split at h
            · rename_i mz p hZm hpend
              cases h
              exact Or.inr (Or.inr ⟨p, .amt 0, .amt 0, hpend, rfl, rfl⟩)
            · cases h; exact Or.inl ⟨rfl, rfl⟩

/-! ### Accumulated records factor out of a run -/

theorem procLine_addRecs {f : String} {a : Nat} {rs : List Record} {st : PState}
    {raw : String} :
    procLine f a (addRecs rs st) raw = (procLine f a st raw).map (addRecs rs) := by
  obtain ⟨cur, pnd, rcs⟩ := st
  unfold procLine addRecs
  dsimp only
  repeat' split
  all_goals simp_all [List.append_assoc]

theorem procPage_addRecs {f : String} {a : Nat} {rs : List Record} :
    ∀ {ls : List String} {st : PState},
      procPage f a (addRecs rs st) ls = (procPage f a st ls).map (addRecs rs) := by
  intro ls
  induction ls with
  | nil => intro st; rfl
  | cons l ls ih =>
      intro st
      unfold procPage
      rw [procLine_addRecs]
      cases h : procLine f a st l with
      | none => rfl
      | some st' => exact ih

theorem runPages_addRecs {f : String} {rs : List Record} :
    ∀ {pages : List (List String)} {off : Nat} {st : PState},
      runPages f off (addRecs rs st) pages = (runPages f off st pages).map (addRecs rs) := by
  intro pages
  induction pages with
  | nil => intro off st; rfl
  | cons pg rest ih =>
      intro off st
      unfold runPages
      rw [procPage_addRecs]
      cases h : procPage f (off + 1) st pg with
      | none => rfl
      | some st' => exact ih

theorem finalizeP_addRecs {rs : List Record} {st : PState} :
    finalizeP (addRecs rs st) = rs ++ finalizeP st := by
  obtain ⟨cur, pnd, rcs⟩ := st
  unfold finalizeP addRecs
  cases pnd <;> simp [List.append_assoc]

/-! ### Splitting a run of pages -/

theorem runPages_append {f : String} :
    ∀ {A B : List (List String)} {off : Nat} {st : PState},
      runPages f off st (A ++ B) =
        match runPages f off st A with
        | none => none
        | some st' => runPages f (off + A.length) st' B := by
  intro A
  induction A with
  | nil =>
      intro B off st
      simp [runPages]
  | cons pg A ih =>
      intro B off st
      have h1 : runPages f off st ((pg :: A) ++ B) =
          match procPage f (off + 1) st pg with
          | none => none
          | some st' => runPages f (off + 1) st' (A ++ B) := rfl
      have h2 : runPages f off st (pg :: A) =
          match procPage f (off + 1) st pg with
          | none => none
          | some st' => runPages f (off + 1) st' A := rfl
      rw [h1, h2]
      cases h : procPage f (off + 1) st pg with
      | none => rfl
      | some st' =>
          dsimp only
          rw [ih]
          have hlen : off + (pg :: A).length = off + 1 + A.length := by
            simp only [List.length_cons]
            omega
          rw [hlen]

/-! ### Chunked processing versus one single window -/

theorem processChunks_eq_of_boundaries {f : String} :
    ∀ {chunks : List (List (List String))} {off : Nat},
      chunkBoundariesClear f off chunks = true →
      processChunksAux f off chunks = parse_pages chunks.flatten f off := by
  intro chunks
  induction chunks with
  | nil => intro off h; rfl
  | cons c rest ih =>
      intro off h
      have hflat : (c :: rest).flatten = c ++ rest.flatten := rfl
      rw [hflat]
      unfold parse_pages
      rw [runPages_append]
      have hL : processChunksAux f off (c :: rest) =
          match parse_pages c f off with
          | none => none
          | some rs => (processChunksAux f (off + c.length) rest).map fun more =>
              rs ++ more := rfl
      cases hc : runPages f off initState c with
      | none =>
          rw [hL, show parse_pages c f off = none from by unfold parse_pages; rw [hc]; rfl]
          rfl
      | some st =>
          dsimp only
          cases rest with
          | nil =>
              rw [hL, show parse_pages c f off = some (finalizeP st) from by
                unfold parse_pages; rw [hc]; rfl]
              simp [runPages, processChunksAux]
          | cons r2 rest2 =>
              have hb1 := (List.all_eq_true.mp h) 1 (by
                rw [List.mem_range]
                simp only [List.length_cons]
                omega)
              have htake1 : ((c :: r2 :: rest2).take 1).flatten = c := by
                simp
              rw [htake1, hc] at hb1
              simp only [Bool.and_eq_true, Option.isNone_iff_eq_none] at hb1
              obtain ⟨hcur, hpnd⟩ := hb1
              have hst : st = addRecs st.records initState := by
                obtain ⟨cu, pn, rc⟩ := st
                simp only [addRecs, initState] at *
                simp_all
              have hpc : parse_pages c f off = some st.records := by
                unfold parse_pages
                rw [hc]
                simp [finalizeP, hpnd]
              have hrest : chunkBoundariesClear f (off + c.length) (r2 :: rest2) = true := by
                unfold chunkBoundariesClear at h ⊢
                rw [List.all_eq_true] at h ⊢
                intro k hk
                rw [List.mem_range] at hk
                have horig := h (k + 1) (by
                  rw [List.mem_range]
                  simp only [List.length_cons] at hk ⊢
                  omega)
                have htake : ((c :: r2 :: rest2).take (k + 1)).flatten =
                    c ++ ((r2 :: rest2).take k).flatten := by
                  rw [List.take_succ_cons, List.flatten_cons]
                rw [htake, runPages_append, hc] at horig
                dsimp only at horig
                rw [hst, runPages_addRecs] at horig
                cases h2 : runPages f (off + c.length) initState
                    (((r2 :: rest2).take k).flatten) with
                | none => simp [h2]
                | some y =>
                    rw [h2] at horig
                    simpa [addRecs] using horig
              rw [hL, hpc]
              dsimp only
              rw [ih hrest]
              rw [hst, runPages_addRecs]
              unfold parse_pages
              cases h2 : runPages f (off + c.length) initState
                  ((r2 :: rest2).flatten) with
              | none => rfl
              | some st2 =>
                  simp only [Option.map_some']
                  rw [show (addRecs st.records initState).records = st.records from by
                    simp [addRecs, initState]]
                  exact congrArg some finalizeP_addRecs.symm

/-! ### The instrumented assembler projects onto the real one -/

theorem procLineI_erase {f : String} {off lp : Nat} {st : PStateI} {raw : String} :
    procLine f (off + lp) (eraseSt st) raw = (procLineI f off lp st raw).map eraseSt := by
  obtain ⟨cur, pnd, rcs⟩ := st
  unfold procLine procLineI eraseSt
  dsimp only
  cases pnd with
  | none =>
      simp only [Option.map_none']
      repeat' split
      all_goals first
        | rfl
        | contradiction
        | (simp [List.map_append]; done)
        | (simp_all [List.map_append]; done)
  | some pr =>
      simp only [Option.map_some']
      repeat' split
      all_goals first
        | rfl
        | contradiction
        | (simp [List.map_append]; done)
        | (simp_all [List.map_append]; done)

theorem procPageI_erase {f : String} {off lp : Nat} :
    ∀ {ls : List String} {st : PStateI},
      procPage f (off + lp) (eraseSt st) ls = (procPageI f off lp st ls).map eraseSt := by
  intro ls
  induction ls with
  | nil => intro st; rfl
  | cons l ls ih =>
      intro st
      unfold procPage procPageI
      rw [procLineI_erase]
      cases h : procLineI f off lp st l with
      | none => rfl
      | some st' => exact ih

theorem runPagesI_erase {f : String} {off : Nat} :
    ∀ {pages : List (List String)} {lp : Nat} {st : PStateI},
      runPages f (off + lp) (eraseSt st) pages = (runPagesI f off lp st pages).map eraseSt := by
  intro pages
  induction pages with
  | nil => intro lp st; rfl
  | cons pg rest ih =>
      intro lp st
      unfold runPages runPagesI
      rw [show off + lp + 1 = off + (lp + 1) from rfl, procPageI_erase]
      cases h : procPageI f off (lp + 1) st pg with
      | none => rfl
      | some st' => exact ih

theorem finalizeI_erase {st : PStateI} :
    finalizeP (eraseSt st) = (finalizeI st).map Prod.fst := by
  obtain ⟨cur, pnd, rcs⟩ := st
  cases pnd with
  | none => rfl
  | some pr => simp [finalizeP, finalizeI, eraseSt, List.map_append]

theorem parse_pagesI_erase {pages : List (List String)} {f : String} {off : Nat} :
    parse_pages pages f off = (parse_pagesI pages f off).map (List.map Prod.fst) := by
  unfold parse_pages parse_pagesI
  rw [show runPages f off initState pages
        = runPages f (off + 0) (eraseSt initStateI) pages from rfl]
  rw [runPagesI_erase]
  cases h : runPagesI f off 0 initStateI pages with
  | none => rfl
  | some st => simp [finalizeI_erase]

/-! ### Origin pages in the instrumented assembler -/

theorem procLineI_cases {f : String} {off lp : Nat} {st : PStateI} {raw : String}
    {st' : PStateI} (h : procLineI f off lp st raw = some st') :
    (st'.recordsI = st.recordsI ∧ st'.pendingI = st.pendingI) ∨
    (∃ ctx m amt, st.current = some ctx ∧ st'.recordsI = st.recordsI ∧
       st'.pendingI = some (mkPending f (off + lp) ctx m amt, lp)) ∨
    (∃ p v w, st.pendingI = some p ∧ st'.pendingI = none ∧
       st'.recordsI = st.recordsI ++ [(closeRec p.1 v w, p.2)]) := by
  unfold procLineI at h
  dsimp only at h
  split at h
  · cases h; exact Or.inl ⟨rfl, rfl⟩
  · split at h
    · cases h; exact Or.inl ⟨rfl, rfl⟩
    · split at h
      · cases h; exact Or.inl ⟨rfl, rfl⟩
      · split at h
        · rename_i m ctx hAm hctx
          split at h
          · cases h
          · rename_i amt hamt
            cases h
            exact Or.inr (Or.inl ⟨ctx, m, amt, hctx, rfl, rfl⟩)
        · split at h
          · rename_i m p hIm hpend
            split at h
            · rename_i a₂ pc heq1 heq2
              cases h
              exact Or.inr (Or.inr ⟨p, .amt a₂, .amt pc, hpend, rfl, rfl⟩)
            · cases h
          · split at h
            · rename_i mz p hZm hpend
              cases h
              exact Or.inr (Or.inr ⟨p, .amt 0, .amt 0, hpend, rfl, rfl⟩)
            · cases h; exact Or.inl ⟨rfl, rfl⟩

theorem procLineI_inv {f : String} {off lp : Nat} {st : PStateI} {raw : String}
    {st' : PStateI} (h : procLineI f off lp st raw = some st') (hlp : 1 ≤ lp)
    (hpend : ∀ x, st.pendingI = some x → x.1.page = off + x.2 ∧ 1 ≤ x.2 ∧ x.2 ≤ lp)
    (hrecs : ∀ x ∈ st.recordsI, x.1.page = off + x.2 ∧ 1 ≤ x.2 ∧ x.2 ≤ lp) :
    (∀ x, st'.pendingI = some x → x.1.page = off + x.2 ∧ 1 ≤ x.2 ∧ x.2 ≤ lp) ∧
    (∀ x ∈ st'.recordsI, x.1.page = off + x.2 ∧ 1 ≤ x.2 ∧ x.2 ≤ lp) := by
  rcases procLineI_cases h with ⟨hr, hp⟩ | ⟨ctx, m, amt, -, hr, hp⟩ |
      ⟨p, v, w, hp0, hp, hr⟩
  · constructor
    · intro x hx
      rw [hp] at hx
      exact hpend x hx
    · intro x hx
      rw [hr] at hx
      exact hrecs x hx
  · constructor
    · intro x hx
      rw [hp] at hx
      cases hx
      exact ⟨rfl, hlp, le_refl lp⟩
    · intro x hx
      rw [hr] at hx
      exact hrecs x hx
  · constructor
    · intro x hx
      rw [hp] at hx
      cases hx
    · intro x hx
      rw [hr, List.mem_append] at hx
      rcases hx with hx | hx
      · exact hrecs x hx
      · rw [List.mem_singleton] at hx
        subst hx
        obtain ⟨h1, h2, h3⟩ := hpend p hp0
        exact ⟨h1, h2, h3⟩

theorem procPageI_inv {f : String} {off lp : Nat} (hlp : 1 ≤ lp) :
    ∀ {ls : List String} {st st' : PStateI}, procPageI f off lp st ls = some st' →
      (∀ x, st.pendingI = some x → x.1.page = off + x.2 ∧ 1 ≤ x.2 ∧ x.2 ≤ lp) →
      (∀ x ∈ st.recordsI, x.1.page = off + x.2 ∧ 1 ≤ x.2 ∧ x.2 ≤ lp) →
      (∀ x, st'.pendingI = some x → x.1.page = off + x.2 ∧ 1 ≤ x.2 ∧ x.2 ≤ lp) ∧
      (∀ x ∈ st'.recordsI, x.1.page = off + x.2 ∧ 1 ≤ x.2 ∧ x.2 ≤ lp) := by
  intro ls
  induction ls with
  | nil =>
      intro st st' h hp hr
      cases h
      exact ⟨hp, hr⟩
  | cons l ls ih =>
      intro st st' h hp hr
      unfold procPageI at h
      cases h1 : procLineI f off lp st l with
      | none => rw [h1] at h; cases h
      | some st1 =>
          rw [h1] at h
          obtain ⟨hp1, hr1⟩ := procLineI_inv h1 hlp hp hr
          exact ih h hp1 hr1

theorem runPagesI_inv {f : String} {off : Nat} :
    ∀ {pages : List (List String)} {lp : Nat} {st st' : PStateI},
      runPagesI f off lp st pages = some st' →
      (∀ x, st.pendingI = some x → x.1.page = off + x.2 ∧ 1 ≤ x.2 ∧ x.2 ≤ lp) →
      (∀ x ∈ st.recordsI, x.1.page = off + x.2 ∧ 1 ≤ x.2 ∧ x.2 ≤ lp) →
      (∀ x, st'.pendingI = some x →
         x.1.page = off + x.2 ∧ 1 ≤ x.2 ∧ x.2 ≤ lp + pages.length) ∧
      (∀ x ∈ st'.recordsI, x.1.page = off + x.2 ∧ 1 ≤ x.2 ∧ x.2 ≤ lp + pages.length) := by
  intro pages
  induction pages with
  | nil =>
      intro lp st st' h hp hr
      cases h
      constructor
      · intro x hx
        obtain ⟨h1, h2, h3⟩ := hp x hx
        exact ⟨h1, h2, by simpa using h3⟩
      · intro x hx
        obtain ⟨h1, h2, h3⟩ := hr x hx
        exact ⟨h1, h2, by simpa using h3⟩
  | cons pg rest ih =>
      intro lp st st' h hp hr
      unfold runPagesI at h
      cases h1 : procPageI f off (lp + 1) st pg with
      | none => rw [h1] at h; cases h
      | some st1 =>
          rw [h1] at h
          have hweak : ∀ (y : Pending × Nat),
              (y.1.page = off + y.2 ∧ 1 ≤ y.2 ∧ y.2 ≤ lp) →
              (y.1.page = off + y.2 ∧ 1 ≤ y.2 ∧ y.2 ≤ lp + 1) := by
            rintro y ⟨a, b, cc⟩
            exact ⟨a, b, by omega⟩
          obtain ⟨hp1, hr1⟩ := procPageI_inv (by omega) h1
            (fun x hx => hweak x (hp x hx))
            (fun x hx => by
              obtain ⟨a, b, cc⟩ := hr x hx
              exact ⟨a, b, by omega⟩)
          obtain ⟨hp2, hr2⟩ := ih h hp1 hr1
          constructor
          · intro x hx
            obtain ⟨a, b, cc⟩ := hp2 x hx
            refine ⟨a, b, ?_⟩
            simp only [List.length_cons]
            omega
          · intro x hx
            obtain ⟨a, b, cc⟩ := hr2 x hx
            refine ⟨a, b, ?_⟩
            simp only [List.length_cons]
            omega

theorem parse_pagesI_spec {pages : List (List String)} {f : String} {off : Nat}
    {irs : List (Record × Nat)} (h : parse_pagesI pages f off = some irs) :
    ∀ x ∈ irs, x.1.page = off + x.2 ∧ 1 ≤ x.2 ∧ x.2 ≤ pages.length := by
  unfold parse_pagesI at h
  cases h1 : runPagesI f off 0 initStateI pages with
  | none => rw [h1] at h; cases h
  | some st =>
      rw [h1] at h
      simp only [Option.map_some'] at h
      obtain ⟨hp, hr⟩ := runPagesI_inv h1
        (by intro x hx; cases hx) (by intro x hx; cases hx)
      injection h with h
      subst h
      intro x hx
      unfold finalizeI at hx
      cases hpd : st.pendingI with
      | none =>
          rw [hpd] at hx
          obtain ⟨a, b, cc⟩ := hr x hx
          exact ⟨a, b, by simpa using cc⟩
      | some pr =>
          rw [hpd] at hx
          simp only [List.mem_append, List.mem_singleton] at hx
          rcases hx with hx | hx
          · obtain ⟨a, b, cc⟩ := hr x hx
            exact ⟨a, b, by simpa using cc⟩
          · subst hx
            obtain ⟨a, b, cc⟩ := hp pr hpd
            exact ⟨a, b, by simpa using cc⟩

theorem processChunksIAux_spec {f : String} :
    ∀ {cs : List (List (List String))} {k off : Nat} {out : List (Record × Nat × Nat)},
      processChunksIAux f k off cs = some out →
      processChunksAux f off cs = some (out.map fun t => t.1) ∧
      ∀ t ∈ out, ∃ j, ∃ hj : j < cs.length, t.2.1 = k + j ∧
        t.1.page = off + offSum cs j + t.2.2 ∧ 1 ≤ t.2.2 ∧
        t.2.2 ≤ (cs.get ⟨j, hj⟩).length := by
  intro cs
  induction cs with
  | nil =>
      intro k off out h
      injection h with h
      subst h
      exact ⟨rfl, by simp⟩
  | cons c rest ih =>
      intro k off out h
      unfold processChunksIAux at h
      cases h1 : parse_pagesI c f off with
      | none => rw [h1] at h; cases h
      | some irs =>
          rw [h1] at h
          cases h2 : processChunksIAux f (k + 1) (off + c.length) rest with
          | none => rw [h2] at h; cases h
          | some out2 =>
              rw [h2] at h
              simp only [Option.map_some'] at h
              injection h with h
              subst h
              obtain ⟨hproj, hspec⟩ := ih h2
              constructor
              · have hpp : parse_pages c f off = some (irs.map fun x => x.1) := by
                  rw [parse_pagesI_erase, h1]
                  rfl
                unfold processChunksAux
                rw [hpp, hproj]
                simp [List.map_append, Function.comp]
              · intro t ht
                rw [List.mem_append] at ht
                rcases ht with ht | ht
                · rw [List.mem_map] at ht
                  obtain ⟨x, hx, rfl⟩ := ht
                  obtain ⟨hpage, hb1, hb2⟩ := parse_pagesI_spec h1 x hx
                  refine ⟨0, by simp, by simp, ?_, hb1, ?_⟩
                  · simpa [offSum] using hpage
                  · simpa using hb2
                · obtain ⟨j, hj, hkj, hpage, hb1, hb2⟩ := hspec t ht
                  refine ⟨j + 1, by simpa using Nat.succ_lt_succ hj, ?_, ?_, hb1, ?_⟩
                  · rw [hkj]
                    omega
                  · have hoff : offSum (c :: rest) (j + 1) = c.length + offSum rest j := by
                      simp [offSum, List.take_succ_cons]
                    rw [hoff]
                    omega
                  · simpa using hb2

/-! ### Emitted pages are non-decreasing -/

theorem procLine_mono {f : String} {a : Nat} {st : PState} {raw : String} {st' : PState}
    (h : procLine f a st raw = some st')
    (hrec : List.Pairwise (fun x y => x.page ≤ y.page) st.records)
    (hbound : ∀ r ∈ st.records, r.page ≤ a)
    (hpend : ∀ p, st.pending = some p →
      (∀ r ∈ st.records, r.page ≤ p.page) ∧ p.page ≤ a) :
    List.Pairwise (fun x y => x.page ≤ y.page) st'.records ∧
    (∀ r ∈ st'.records, r.page ≤ a) ∧
    (∀ p, st'.pending = some p →
      (∀ r ∈ st'.records, r.page ≤ p.page) ∧ p.page ≤ a) := by
  rcases procLine_cases h with ⟨hr, hp⟩ | ⟨ctx, m, amt, -, hr, hp⟩ |
      ⟨p, v, w, hp0, hp, hr⟩
  · rw [hr, hp]
    exact ⟨hrec, hbound, hpend⟩
  · rw [hr, hp]
    refine ⟨hrec, hbound, ?_⟩
    rintro q hq
    injection hq with hq
    subst hq
    exact ⟨hbound, le_refl a⟩
  · rw [hr, hp]
    obtain ⟨hle, hpa⟩ := hpend p hp0
    refine ⟨?_, ?_, by rintro q ⟨⟩⟩
    · rw [List.pairwise_append]
      refine ⟨hrec, by simp, ?_⟩
      intro x hx y hy
      rw [List.mem_singleton] at hy
      subst hy
      exact hle x hx
    · intro r hrm
      rw [List.mem_append] at hrm
      rcases hrm with hrm | hrm
      · exact hbound r hrm
      · rw [List.mem_singleton] at hrm
        subst hrm
        exact hpa

theorem procPage_mono {f : String} {a : Nat} :
    ∀ {ls : List String} {st st' : PState}, procPage f a st ls = some st' →
      List.Pairwise (fun x y => x.page ≤ y.page) st.records →
      (∀ r ∈ st.records, r.page ≤ a) →
      (∀ p, st.pending = some p →
        (∀ r ∈ st.records, r.page ≤ p.page) ∧ p.page ≤ a) →
      List.Pairwise (fun x y => x.page ≤ y.page) st'.records ∧
      (∀ r ∈ st'.records, r.page ≤ a) ∧
      (∀ p, st'.pending = some p →
        (∀ r ∈ st'.records, r.page ≤ p.page) ∧ p.page ≤ a) := by
  intro ls
  induction ls with
  | nil =>
      intro st st' h h1 h2 h3
      cases h
      exact ⟨h1, h2, h3⟩
  | cons l ls ih =>
      intro st st' h h1 h2 h3
      unfold procPage at h
      cases hl : procLine f a st l with
      | none => rw [hl] at h; cases h
      | some st1 =>
          rw [hl] at h
          obtain ⟨g1, g2, g3⟩ := procLine_mono hl h1 h2 h3
          exact ih h g1 g2 g3

theorem runPages_mono {f : String} :
    ∀ {pages : List (List String)} {off : Nat} {st st' : PState},
      runPages f off st pages = some st' →
      List.Pairwise (fun x y => x.page ≤ y.page) st.records →
      (∀ r ∈ st.records, r.page ≤ off) →
      (∀ p, st.pending = some p →
        (∀ r ∈ st.records, r.page ≤ p.page) ∧ p.page ≤ off) →
      List.Pairwise (fun x y => x.page ≤ y.page) st'.records ∧
      (∀ r ∈ st'.records, r.page ≤ off + pages.length) ∧
      (∀ p, st'.pending = some p →
        (∀ r ∈ st'.records, r.page ≤ p.page) ∧ p.page ≤ off + pages.length) := by
  intro pages
  induction pages with
  | nil =>
      intro off st st' h h1 h2 h3
      cases h
      exact ⟨h1, by simpa using h2, by simpa using h3⟩
  | cons pg rest ih =>
      intro off st st' h h1 h2 h3
      unfold runPages at h
      cases hp : procPage f (off + 1) st pg with
      | none => rw [hp] at h; cases h
      | some st1 =>
          rw [hp] at h
          obtain ⟨g1, g2, g3⟩ := procPage_mono hp h1
            (fun r hr => le_trans (h2 r hr) (by omega))
            (fun p hpe => by
              obtain ⟨ga, gb⟩ := h3 p hpe
              exact ⟨ga, by omega⟩)
          obtain ⟨k1, k2, k3⟩ := ih h g1 g2 g3
          refine ⟨k1, ?_, ?_⟩
          · intro r hr
            have := k2 r hr
            simp only [List.length_cons]
            omega
          · intro p hpe
            obtain ⟨ka, kb⟩ := k3 p hpe
            refine ⟨ka, ?_⟩
            simp only [List.length_cons]
            omega

theorem parse_pages_mono {pages : List (List String)} {f : String} {off : Nat}
    {rs : List Record} (h : parse_pages pages f off = some rs) :
    List.Pairwise (fun x y => x.page ≤ y.page) rs := by
  unfold parse_pages at h
  cases h1 : runPages f off initState pages with
  | none => rw [h1] at h; cases h
  | some st =>
      rw [h1] at h
      injection h with h
      subst h
      obtain ⟨g1, g2, g3⟩ := runPages_mono h1 (by simp [initState])
        (by simp [initState]) (by simp [initState])
      unfold finalizeP
      cases hpd : st.pending with
      | none => exact g1
      | some p =>
          obtain ⟨ga, gb⟩ := g3 p hpd
          rw [List.pairwise_append]
          refine ⟨g1, by simp, ?_⟩
          intro x hx y hy
          rw [List.mem_singleton] at hy
          subst hy
          exact ga x hx

/-! ### The page-window plan -/

theorem split_plan_eq (n c : Nat) (hn : 0 < n) (hc : 0 < c) :
    split_plan n c =
      (List.range ((n + c - 1) / c)).map fun i => (i * c, min (i * c + c) n) := by
  unfold split_plan
  by_cases h : n ≤ c
  · rw [if_pos h]
    have hk : (n + c - 1) / c = 1 :=
      Nat.div_eq_of_lt_le (by omega) (by omega)
    rw [hk]
    have hmin : min (0 * c + c) n = n := by
      rw [Nat.zero_mul, Nat.zero_add]
      omega
    simp [List.range_succ, hmin, h]
  · rw [if_neg h]

theorem sum_min_windows (c n : Nat) :
    ∀ K, (((List.range K).map fun i => min (i * c + c) n - i * c)).sum = min (K * c) n := by
  intro K
  induction K with
  | zero => simp
  | succ k ih =>
      rw [List.range_succ, List.map_append, List.sum_append, ih]
      simp only [List.map_cons, List.map_nil, List.sum_cons, List.sum_nil]
      rcases Nat.le_total (k * c + c) n with h | h
      · have h1 : k * c ≤ n := by omega
        rw [min_eq_left h1]
        have : (k + 1) * c = k * c + c := by ring
        rw [this, min_eq_left h]
        omega
      · rcases Nat.le_total n (k * c) with h2 | h2
        · rw [min_eq_right h2]
          have : n ≤ (k + 1) * c := by
            have : (k + 1) * c = k * c + c := by ring
            omega
          rw [min_eq_right this]
          omega
        · rw [min_eq_left h2]
          have h3 : n ≤ (k + 1) * c := by
            have : (k + 1) * c = k * c + c := by ring
            omega
          rw [min_eq_right h3]
          omega

theorem ceil_mul_ge (n c : Nat) (hn : 0 < n) (hc : 0 < c) :
    n ≤ ((n + c - 1) / c) * c ∧ (((n + c - 1) / c) - 1) * c < n ∧ 0 < (n + c - 1) / c := by
  obtain ⟨q, hq⟩ : ∃ q, (n + c - 1) / c = q := ⟨_, rfl⟩
  have hdm := Nat.div_add_mod (n + c - 1) c
  have hmod : (n + c - 1) % c < c := Nat.mod_lt _ hc
  rw [hq] at hdm ⊢
  cases q with
  | zero =>
      exfalso
      rw [Nat.mul_zero, Nat.zero_add] at hdm
      omega
  | succ q' =>
      have h1 : c * (q' + 1) = c * q' + c := by ring
      rw [h1] at hdm
      have h2 : (q' + 1) * c = c * q' + c := by ring
      have h3 : (q' + 1 - 1) * c = c * q' := by
        rw [Nat.succ_sub_one, Nat.mul_comm]
      rw [h2, h3]
      omega

/-! ### Lines with well-formed percent captures never raise -/

theorem procLine_isSome_of_percentOK {f : String} {a : Nat} {st : PState} {l : String}
    (hok : percentOK l = true) : procLine f a st l ≠ none := by
  intro hnone
  obtain ⟨m, hIm, -, hfloat⟩ := procLine_none hnone
  obtain ⟨p, r, hmem⟩ := reMatch_some_mem hIm
  obtain ⟨w, pc, -, -, hpc⟩ := invoiced_grps hmem
  unfold percentOK at hok
  rw [hIm] at hok
  dsimp only at hok
  rw [hpc] at hok
  rw [hpc] at hfloat
  simp only [Option.getD_some] at hfloat
  dsimp only at hok
  rw [hfloat] at hok
  simp at hok

theorem procPage_isSome_of_percentOK {f : String} {a : Nat} :
    ∀ {ls : List String} {st : PState}, ls.all percentOK = true →
      procPage f a st ls ≠ none := by
  intro ls
  induction ls with
  | nil => intro st h hn; cases hn
  | cons l ls ih =>
      intro st h
      rw [List.all_cons, Bool.and_eq_true] at h
      unfold procPage
      cases h1 : procLine f a st l with
      | none => exact absurd h1 (procLine_isSome_of_percentOK h.1)
      | some st1 => exact ih h.2

theorem runPages_isSome_of_percentOK {f : String} :
    ∀ {pages : List (List String)} {off : Nat} {st : PState},
      pagesPercentOK pages = true → runPages f off st pages ≠ none := by
  intro pages
  induction pages with
  | nil => intro off st h hn; cases hn
  | cons pg rest ih =>
      intro off st h
      unfold pagesPercentOK at h
      rw [List.all_cons, Bool.and_eq_true] at h
      unfold runPages
      cases h1 : procPage f (off + 1) st pg with
      | none => exact absurd h1 (procPage_isSome_of_percentOK h.1)
      | some st1 => exact ih h.2

theorem split_plan_length (n c : Nat) (hn : 0 < n) (hc : 0 < c) :
    (split_plan n c).length = (n + c - 1) / c := by
  rw [split_plan_eq n c hn hc, List.length_map, List.length_range]

theorem split_plan_getD (n c : Nat) (hn : 0 < n) (hc : 0 < c) {i : Nat}
    (hi : i < (n + c - 1) / c) :
    (split_plan n c).getD i (0, 0) = (i * c, min (i * c + c) n) := by
  rw [split_plan_eq n c hn hc, List.getD_eq_getElem?_getD, List.getElem?_map,
      List.getElem?_range hi]
  rfl

/-! ## The claims -/

/-- C1, counterexample: a document whose account line sits in one chunk and
whose invoiced line sits in the next.  Parsed as a single window it yields one
normal record; parsed chunk by chunk it yields a record closed with the
truncation sentinel at the interior chunk boundary, so the two record
sequences differ.  The claimed chunk/whole equivalence is false: parser state
does not survive chunk boundaries. -/
theorem C1_cex :
    parse_pages [["4500000000 FO 1 V BC1 01/01/2024", "1 AB 1 EA 1.00 USD"],
        ["Still to be invoiced 1 EA 1.00 USD 50.00%"]] "f" 0 ≠
      processChunksAux "f" 0
        [[["4500000000 FO 1 V BC1 01/01/2024", "1 AB 1 EA 1.00 USD"]],
         [["Still to be invoiced 1 EA 1.00 USD 50.00%"]]] ∧
    (processChunksAux "f" 0
        [[["4500000000 FO 1 V BC1 01/01/2024", "1 AB 1 EA 1.00 USD"]],
         [["Still to be invoiced 1 EA 1.00 USD 50.00%"]]]).map
      (List.map fun r => r.stillToBeInvoiced) = some [InvVal.truncated] ∧
    (parse_pages [["4500000000 FO 1 V BC1 01/01/2024", "1 AB 1 EA 1.00 USD"],
        ["Still to be invoiced 1 EA 1.00 USD 50.00%"]] "f" 0).map
      (List.map fun r => r.stillToBeInvoiced) = some [InvVal.amt 1] := by
  refine ⟨?_, by with_unfolding_all decide, by with_unfolding_all decide⟩
  with_unfolding_all decide

/-- C1 (amended): the assembler state is re-initialised for every chunk and an
open pending record is closed with the truncation sentinel at the end of every
chunk, not only the last.  Whenever the single-window run reaches every chunk
boundary with an empty context and no open pending record, chunked processing
with cumulative page offsets agrees with single-window processing. -/
theorem C1_chunk_state (f : String) (chunks : List (List (List String)))
    (hb : chunkBoundariesClear f 0 chunks = true) :
    process_one_file chunks f = parse_pages chunks.flatten f 0 :=
  processChunks_eq_of_boundaries hb

theorem C1_witness :
    process_one_file [[["x"]],
        [["4500000000 FO 1 V BC1 01/01/2024", "1 AB 1 EA 1.00 USD",
          "Still to be invoiced 1 EA 1.00 USD 50.00%"]]] "f" =
      parse_pages [[["x"]],
        [["4500000000 FO 1 V BC1 01/01/2024", "1 AB 1 EA 1.00 USD",
          "Still to be invoiced 1 EA 1.00 USD 50.00%"]]].flatten "f" 0 :=
  C1_chunk_state "f" _ (by decide)

/-- C2, counterexample: `"00010 Widget assembly"` is a classified `LineItem`
line, yet with an empty PO context the assembler records nothing at all — the
state is returned unchanged (`if m and current` hard-requires a non-empty
context), contradicting the claim that `currentLineItem` is overwritten
regardless. -/
theorem C2_cex :
    (reMatch LINE_ITEM (pyStripL ("00010 Widget assembly").data)).isSome = true ∧
    procLine "f" 1 initState "00010 Widget assembly" = some initState := by
  refine ⟨by decide, by decide⟩

/-- C2 (amended): a `LineItem` line overwrites `line_num`/`desc` only when the
PO context is non-empty; when the context is empty the line has no effect at
all (the source hard-requires `current` via `if m and current`). -/
theorem C2_lineitem (f : String) (a : Nat) (st : PState) (l : String) (m : Caps)
    (h : reMatch LINE_ITEM (pyStripL l.data) = some m) :
    procLine f a st l = some { st with current := st.current.map fun ctx =>
      { ctx with lineNum := some (capStr m 1),
                 desc := some ⟨pyStripL ((grpGet m 2).getD [])⟩ } } :=
  procLine_lineitem h

theorem C2_witness :
    procLine "f" 1
      ⟨some ⟨"4500000000", "FO", "1", "V", "BC1", "01/01/2024", none, none⟩, none, []⟩
      "00010 Widget assembly" =
      some ⟨some ⟨"4500000000", "FO", "1", "V", "BC1", "01/01/2024",
        some "00010", some "Widget assembly"⟩, none, []⟩ :=
  C2_lineitem "f" 1
    ⟨some ⟨"4500000000", "FO", "1", "V", "BC1", "01/01/2024", none, none⟩, none, []⟩
    "00010 Widget assembly"
    [(1, "00010".data), (2, "Widget assembly".data)] (by decide)

/-- C3, counterexample: `"1 AB 1 EA 1.00 USD"` is a classified `AccountLine`,
yet with no header ever seen (`current` empty) no `PendingRecord` snapshot is
built — the line is skipped entirely, contradicting the claim that a snapshot
with empty-string PO fields is built. -/
theorem C3_cex :
    (reMatch ACCOUNT_LINE (pyStripL ("1 AB 1 EA 1.00 USD").data)).isSome = true ∧
    procLine "f" 1 initState "1 AB 1 EA 1.00 USD" = some initState := by
  refine ⟨by decide, by decide⟩

/-- C3 (amended): an `AccountLine` builds a `PendingRecord` snapshot (from the
active context, with `line_num`/`desc` defaulting to empty strings) only when
the PO context is non-empty; with no header ever seen the account line is
ignored and no record with empty PO fields can arise from it. -/
theorem C3_account (f : String) (a : Nat) (st : PState) (l : String) (m : Caps)
    (amt : ℚ) (h : reMatch ACCOUNT_LINE (pyStripL l.data) = some m)
    (hamt : parse_amount ((grpGet m 4).getD []) = some amt) :
    procLine f a st l = some (match st.current with
      | some ctx => { st with pending := some (mkPending f a ctx m amt) }
      | none => st) :=
  procLine_account h hamt

theorem C3_witness :
    procLine "f" 2
      ⟨some ⟨"4500000000", "FO", "1", "V", "BC1", "01/01/2024", none, none⟩, none, []⟩
      "1 AB 1 EA 1.00 USD" =
      some ⟨some ⟨"4500000000", "FO", "1", "V", "BC1", "01/01/2024", none, none⟩,
        some ⟨"f", 2, "4500000000", "FO", "1", "V", "BC1", "01/01/2024", "", "", "AB", 1⟩,
        []⟩ :=
  C3_account "f" 2
    ⟨some ⟨"4500000000", "FO", "1", "V", "BC1", "01/01/2024", none, none⟩, none, []⟩
    "1 AB 1 EA 1.00 USD"
    [(1, "1".data), (2, "AB".data), (4, "1.00".data)] 1 (by decide)
    (by with_unfolding_all decide)

/-- C4, counterexample: a second header line wipes the recorded
`line_num`/`desc` (the source replaces the whole `current` dict), so
`currentLineItem` does not survive a `Header` — contradicting the claim that a
header leaves `currentLineItem` unchanged. -/
theorem C4_cex :
    procLine "f" 1
      ⟨some ⟨"4500000000", "FO", "1", "V", "BC1", "01/01/2024",
        some "00010", some "Widget assembly"⟩, none, []⟩
      "4500999999 NB 7 W BC2 02/02/2024" =
      some ⟨some ⟨"4500999999", "NB", "7", "W", "BC2", "02/02/2024", none, none⟩,
        none, []⟩ := by
  decide

/-- C4 (amended): a `Header` line replaces the context wholesale — it
overwrites `currentPO` and clears `currentLineItem` (the fresh dict has no
`line_num`/`desc` keys) — while `pending` and the emitted records are
unchanged. -/
theorem C4_header (f : String) (a : Nat) (st : PState) (l : String) (m : Caps)
    (h : reMatch PO_HEADER (pyStripL l.data) = some m) :
    procLine f a st l = some { st with current := some (headerCtx m) } :=
  procLine_header h

theorem C4_witness :
    procLine "f" 1 initState "4500000000 FO 1 V BC1 01/01/2024" =
      some ⟨some ⟨"4500000000", "FO", "1", "V", "BC1", "01/01/2024", none, none⟩,
        none, []⟩ :=
  C4_header "f" 1 initState "4500000000 FO 1 V BC1 01/01/2024"
    [(1, "4500000000".data), (2, "FO".data), (3, "1".data), (4, "V".data),
     (5, "BC1".data), (6, "01/01/2024".data)] (by decide)

/-- C5: with a non-empty PO context, two consecutive `AccountLine`s with no
invoiced line between or after them produce exactly one record at
end-of-stream: the second account line's pending record closed with the
truncation sentinel in both invoiced fields; the first account line's pending
record is overwritten without ever being emitted. -/
theorem C5_double_account (f : String) (a₁ a₂ : Nat) (st : PState) (ctx : POCtx)
    (l₁ l₂ : String) (m₁ m₂ : Caps) (amt₁ amt₂ : ℚ)
    (hc : st.current = some ctx)
    (h₁ : reMatch ACCOUNT_LINE (pyStripL l₁.data) = some m₁)
    (h₂ : reMatch ACCOUNT_LINE (pyStripL l₂.data) = some m₂)
    (ha₁ : parse_amount ((grpGet m₁ 4).getD []) = some amt₁)
    (ha₂ : parse_amount ((grpGet m₂ 4).getD []) = some amt₂) :
    procLine f a₁ st l₁ = some { st with pending := some (mkPending f a₁ ctx m₁ amt₁) } ∧
    procLine f a₂ { st with pending := some (mkPending f a₁ ctx m₁ amt₁) } l₂ =
      some { st with pending := some (mkPending f a₂ ctx m₂ amt₂) } ∧
    finalizeP { st with pending := some (mkPending f a₂ ctx m₂ amt₂) } =
      st.records ++ [closeRec (mkPending f a₂ ctx m₂ amt₂) .truncated .truncated] := by
  obtain ⟨cur, pnd, rcs⟩ := st
  dsimp only at hc
  subst hc
  refine ⟨?_, ?_, rfl⟩
  · rw [procLine_account h₁ ha₁]
  · rw [procLine_account h₂ ha₂]

theorem C5_witness :
    procLine "f" 1
      ⟨some ⟨"4500000000", "FO", "1", "V", "BC1", "01/01/2024", none, none⟩, none, []⟩
      "1 AB 1 EA 1.00 USD" =
      some ⟨some ⟨"4500000000", "FO", "1", "V", "BC1", "01/01/2024", none, none⟩,
        some ⟨"f", 1, "4500000000", "FO", "1", "V", "BC1", "01/01/2024", "", "", "AB", 1⟩,
        []⟩ ∧
    procLine "f" 1
      ⟨some ⟨"4500000000", "FO", "1", "V", "BC1", "01/01/2024", none, none⟩,
        some ⟨"f", 1, "4500000000", "FO", "1", "V", "BC1", "01/01/2024", "", "", "AB", 1⟩,
        []⟩
      "2 CD 1 EA 2.00 USD" =
      some ⟨some ⟨"4500000000", "FO", "1", "V", "BC1", "01/01/2024", none, none⟩,
        some ⟨"f", 1, "4500000000", "FO", "1", "V", "BC1", "01/01/2024", "", "", "CD", 2⟩,
        []⟩ ∧
    finalizeP
      ⟨some ⟨"4500000000", "FO", "1", "V", "BC1", "01/01/2024", none, none⟩,
        some ⟨"f", 1, "4500000000", "FO", "1", "V", "BC1", "01/01/2024", "", "", "CD", 2⟩,
        []⟩ =
      [closeRec ⟨"f", 1, "4500000000", "FO", "1", "V", "BC1", "01/01/2024", "", "", "CD", 2⟩
        .truncated .truncated] :=
  C5_double_account "f" 1 1
    ⟨some ⟨"4500000000", "FO", "1", "V", "BC1", "01/01/2024", none, none⟩, none, []⟩
    ⟨"4500000000", "FO", "1", "V", "BC1", "01/01/2024", none, none⟩
    "1 AB 1 EA 1.00 USD" "2 CD 1 EA 2.00 USD"
    [(1, "1".data), (2, "AB".data), (4, "1.00".data)]
    [(1, "2".data), (2, "CD".data), (4, "2.00".data)]
    1 2 rfl (by decide) (by decide) (by with_unfolding_all decide)
    (by with_unfolding_all decide)

/-- C6, counterexample: the trimmed, non-empty line
`"Still to be invoiced O EA 0.00 USD 0.00%"` matches both `INVOICED` and
`INVOICED_ZERO`, so the five grammars are not mutually exclusive. -/
theorem C6_cex :
    pyStripL ("Still to be invoiced O EA 0.00 USD 0.00%").data =
      ("Still to be invoiced O EA 0.00 USD 0.00%").data ∧
    ("Still to be invoiced O EA 0.00 USD 0.00%").data ≠ [] ∧
    (reMatch INVOICED ("Still to be invoiced O EA 0.00 USD 0.00%").data).isSome = true ∧
    (reMatch INVOICED_ZERO ("Still to be invoiced O EA 0.00 USD 0.00%").data).isSome
      = true := by
  refine ⟨by decide, by decide, by decide, by decide⟩

/-- C6 (amended): `PO_HEADER`, `LINE_ITEM` and `ACCOUNT_LINE` are pairwise
mutually exclusive and each excludes both invoiced grammars, on every input;
but `INVOICED_ZERO` is not exclusive with `INVOICED`: every line matched by
`INVOICED_ZERO` is also matched by `INVOICED` (so in the fixed source order
the `INVOICED_ZERO` branch is unreachable). -/
theorem C6_exclusivity (s : List Char) :
    (reMatch PO_HEADER s ≠ none → reMatch LINE_ITEM s = none ∧
      reMatch ACCOUNT_LINE s = none ∧ reMatch INVOICED s = none ∧
      reMatch INVOICED_ZERO s = none) ∧
    (reMatch LINE_ITEM s ≠ none → reMatch ACCOUNT_LINE s = none ∧
      reMatch INVOICED s = none ∧ reMatch INVOICED_ZERO s = none) ∧
    (reMatch ACCOUNT_LINE s ≠ none → reMatch INVOICED s = none ∧
      reMatch INVOICED_ZERO s = none) ∧
    (reMatch INVOICED_ZERO s ≠ none → reMatch INVOICED s ≠ none) := by
  have cv : ∀ e : RE, reMatch e s ≠ none ↔ mtch e s ≠ [] := fun e =>
    not_congr reMatch_none_iff
  refine ⟨fun h => ?_, fun h => ?_, fun h => ?_, fun h => ?_⟩
  · rw [cv] at h
    exact ⟨reMatch_none_iff.mpr (header_excl_lineitem h),
           reMatch_none_iff.mpr (header_excl_account h),
           reMatch_none_iff.mpr (header_excl_invoiced h),
           reMatch_none_iff.mpr (header_excl_zero h)⟩
  · rw [cv] at h
    exact ⟨reMatch_none_iff.mpr (lineitem_excl_account h),
           reMatch_none_iff.mpr (lineitem_excl_invoiced h),
           reMatch_none_iff.mpr (lineitem_excl_zero h)⟩
  · rw [cv] at h
    exact ⟨reMatch_none_iff.mpr (account_excl_invoiced h),
           reMatch_none_iff.mpr (account_excl_zero h)⟩
  · rw [cv] at h
    rw [cv]
    exact zero_subset_invoiced h

theorem C6_witness :
    reMatch LINE_ITEM ("4500123456 FO 001234 ACME CORP BC1 01/15/2024").data = none ∧
    reMatch ACCOUNT_LINE ("4500123456 FO 001234 ACME CORP BC1 01/15/2024").data = none ∧
    reMatch INVOICED ("4500123456 FO 001234 ACME CORP BC1 01/15/2024").data = none ∧
    reMatch INVOICED_ZERO ("4500123456 FO 001234 ACME CORP BC1 01/15/2024").data
      = none :=
  (C6_exclusivity ("4500123456 FO 001234 ACME CORP BC1 01/15/2024").data).1 (by decide)

/-- C7, counterexample: on the grammar-matched invoiced line
`"Still to be invoiced 1 EA 1.00 USD ."` the percent capture is `"."`, on
which Python `float` raises, so `parse_pages` aborts (returns `none`, the
model of an escaping `ValueError`) — the parser is not total on malformed
input. -/
theorem C7_cex :
    (reMatch INVOICED (pyStripL ("Still to be invoiced 1 EA 1.00 USD .").data)).isSome
      = true ∧
    parse_pages [["4500000000 FO 1 V BC1 01/01/2024", "1 AB 1 EA 1.00 USD",
      "Still to be invoiced 1 EA 1.00 USD ."]] "f" 0 = none := by
  refine ⟨by decide, by decide⟩

/-- C7 (amended): the amount groups of `ACCOUNT_LINE` and `INVOICED` always
parse (`parse_amount` cannot raise on a grammar-matched amount), and the only
way the parser can raise is through the percent group `[\d.]+`, which
overgenerates; on any input in which every `INVOICED`-matched line has a
percent capture accepted by `float`, `parse_pages` never raises. -/
theorem C7_parse_totality :
    (∀ (pages : List (List String)) (f : String) (off : Nat),
        pagesPercentOK pages = true → (parse_pages pages f off).isSome = true) ∧
    (∀ (s p r : List Char) (c : Caps), (p, r, c) ∈ mtch ACCOUNT_LINE s →
        ∃ w, grpGet c 4 = some w ∧ (parse_amount w).isSome = true) ∧
    (∀ (s p r : List Char) (c : Caps), (p, r, c) ∈ mtch INVOICED s →
        ∃ w, grpGet c 2 = some w ∧ (parse_amount w).isSome = true) := by
  refine ⟨?_, ?_, ?_⟩
  · intro pages f off hp
    unfold parse_pages
    cases h : runPages f off initState pages with
    | none => exact absurd h (runPages_isSome_of_percentOK hp)
    | some st => rfl
  · intro s p r c hm
    obtain ⟨w, hw, hs⟩ := account_grp4 hm
    obtain ⟨v, hv⟩ := parse_amount_of_amountShape hs
    exact ⟨w, hw, by rw [hv]; rfl⟩
  · intro s p r c hm
    obtain ⟨w, pc, hw, hs, -⟩ := invoiced_grps hm
    obtain ⟨v, hv⟩ := parse_amount_of_amountShape hs
    exact ⟨w, hw, by rw [hv]; rfl⟩

theorem C7_witness :
    (parse_pages [["4500000000 FO 1 V BC1 01/01/2024", "1 AB 1 EA 1.00 USD",
      "Still to be invoiced 1 EA 1.00 USD 50.00%"]] "f" 0).isSome = true :=
  C7_parse_totality.1 _ "f" 0 (by decide)

/-- C8: for positive page count and window size, the planner returns the
single full window when `n ≤ c`, and otherwise `⌈n/c⌉` windows of the shape
`(i*c, min (i*c+c) n)`; consecutive windows are exactly adjacent and strictly
increasing, every window but possibly the last has exactly `c` pages, every
window is non-empty with at most `c` pages, and the page counts sum to `n`.
The plan is a pure function of `(n, c)`. -/
theorem C8_chunk_planner (n c : Nat) (hn : 0 < n) (hc : 0 < c) :
    (n ≤ c → split_plan n c = [(0, n)]) ∧
    (split_plan n c).length = (n + c - 1) / c ∧
    (∀ i, i < (split_plan n c).length →
        (split_plan n c).getD i (0, 0) = (i * c, min (i * c + c) n)) ∧
    (∀ i, i + 1 < (split_plan n c).length →
        ((split_plan n c).getD i (0, 0)).2 = ((split_plan n c).getD (i + 1) (0, 0)).1 ∧
        ((split_plan n c).getD i (0, 0)).1 < ((split_plan n c).getD (i + 1) (0, 0)).1 ∧
        ((split_plan n c).getD i (0, 0)).2 - ((split_plan n c).getD i (0, 0)).1 = c) ∧
    (∀ i, i < (split_plan n c).length →
        ((split_plan n c).getD i (0, 0)).1 < ((split_plan n c).getD i (0, 0)).2 ∧
        ((split_plan n c).getD i (0, 0)).2 - ((split_plan n c).getD i (0, 0)).1 ≤ c) ∧
    ((split_plan n c).map fun w => w.2 - w.1).sum = n := by
  obtain ⟨hge, hlt, hpos⟩ := ceil_mul_ge n c hn hc
  have hlen := split_plan_length n c hn hc
  refine ⟨?_, hlen, ?_, ?_, ?_, ?_⟩
  · intro h
    unfold split_plan
    rw [if_pos h]
  · intro i hi
    rw [hlen] at hi
    exact split_plan_getD n c hn hc hi
  · intro i hi
    rw [hlen] at hi
    have hi0 : i < (n + c - 1) / c := by omega
    rw [split_plan_getD n c hn hc hi0, split_plan_getD n c hn hc hi]
    have hmono : (i + 1) * c ≤ ((n + c - 1) / c - 1) * c :=
      Nat.mul_le_mul_right c (by omega)
    have hdistr : (i + 1) * c = i * c + c := by ring
    have hic : i * c + c ≤ n := by omega
    rw [min_eq_left hic]
    dsimp only
    refine ⟨by omega, by omega, by omega⟩
  · intro i hi
    rw [hlen] at hi
    rw [split_plan_getD n c hn hc hi]
    have hmono : i * c ≤ ((n + c - 1) / c - 1) * c :=
      Nat.mul_le_mul_right c (by omega)
    have hin : i * c < n := by omega
    dsimp only
    constructor
    · rcases Nat.le_total (i * c + c) n with h | h
      · rw [min_eq_left h]
        omega
      · rw [min_eq_right h]
        omega
    · rcases Nat.le_total (i * c + c) n with h | h
      · rw [min_eq_left h]
        omega
      · rw [min_eq_right h]
        omega
  · rw [split_plan_eq n c hn hc, List.map_map]
    have hcomp : ((fun w : Nat × Nat => w.2 - w.1) ∘ fun i => (i * c, min (i * c + c) n)) =
        fun i => min (i * c + c) n - i * c := rfl
    rw [hcomp, sum_min_windows, min_eq_right hge]

theorem C8_witness :
    ((split_plan 25 10).map fun w => w.2 - w.1).sum = 25 ∧
    (split_plan 25 10).length = (25 + 10 - 1) / 10 :=
  ⟨(C8_chunk_planner 25 10 (by decide) (by decide)).2.2.2.2.2,
   (C8_chunk_planner 25 10 (by decide) (by decide)).2.1⟩

/-- C9: when the chunks are processed in ascending order with cumulative page
offsets, every record's absolute page equals the total page count of all
earlier chunks plus the 1-based local index, within its chunk, of the page
carrying its originating account line.  The instrumented run tags each record
with its chunk index and the local page at which its pending record was
opened, and erases to the real run. -/
theorem C9_page_offsets (f : String) (chunks : List (List (List String)))
    (out : List (Record × Nat × Nat)) (h : processChunksI f chunks = some out) :
    process_one_file chunks f = some (out.map fun t => t.1) ∧
    ∀ t ∈ out, ∃ hj : t.2.1 < chunks.length,
      t.1.page = offSum chunks t.2.1 + t.2.2 ∧ 1 ≤ t.2.2 ∧
      t.2.2 ≤ (chunks.get ⟨t.2.1, hj⟩).length := by
  obtain ⟨hp, hs⟩ := processChunksIAux_spec h
  refine ⟨hp, ?_⟩
  intro t ht
  obtain ⟨j, hj, hkj, hpage, hb1, hb2⟩ := hs t ht
  have hkj' : t.2.1 = j := by omega
  rw [hkj']
  exact ⟨hj, by omega, hb1, hb2⟩

theorem C9_witness :
    process_one_file [[["4500000000 FO 1 V BC1 01/01/2024", "1 AB 1 EA 1.00 USD",
        "Still to be invoiced 1 EA 1.00 USD 50.00%"]],
      [["x"], ["4500000000 FO 1 V BC1 01/01/2024", "2 CD 1 EA 2.00 USD",
        "Still to be invoiced 1 EA 2.00 USD 30.00%"]]] "f" =
      some (([(⟨"f", 1, "4500000000", "FO", "1", "V", "BC1", "01/01/2024", "", "",
          "AB", 1, .amt 1, .amt 50⟩, 0, 1),
        (⟨"f", 3, "4500000000", "FO", "1", "V", "BC1", "01/01/2024", "", "",
          "CD", 2, .amt 2, .amt 30⟩, 1, 2)] :
          List (Record × Nat × Nat)).map fun t => t.1) :=
  (C9_page_offsets "f" _ _ (by with_unfolding_all decide)).1

/-- C10: the `Page` values of the records returned by `parse_pages` are
non-decreasing in emission order: each record carries its account line's page,
account lines are consumed in page order, and the single pending record is
closed before any later account line's record can be emitted, including the
final truncated one. -/
theorem C10_pages_monotone (pages : List (List String)) (f : String) (off : Nat)
    (rs : List Record) (h : parse_pages pages f off = some rs) :
    List.Pairwise (fun x y => x.page ≤ y.page) rs :=
  parse_pages_mono h

theorem C10_witness :
    List.Pairwise (fun x y : Record => x.page ≤ y.page)
      [⟨"f", 1, "4500000000", "FO", "1", "V", "BC1", "01/01/2024", "", "",
          "AB", 1, .amt 1, .amt 50⟩,
       ⟨"f", 2, "4500000000", "FO", "1", "V", "BC1", "01/01/2024", "", "",
          "CD", 2, .truncated, .truncated⟩] :=
  C10_pages_monotone
    [["4500000000 FO 1 V BC1 01/01/2024", "1 AB 1 EA 1.00 USD"],
     ["Still to be invoiced 1 EA 1.00 USD 50.00%",
      "4500000000 FO 1 V BC1 01/01/2024", "2 CD 1 EA 2.00 USD"]] "f" 0
    [⟨"f", 1, "4500000000", "FO", "1", "V", "BC1", "01/01/2024", "", "",
        "AB", 1, .amt 1, .amt 50⟩,
     ⟨"f", 2, "4500000000", "FO", "1", "V", "BC1", "01/01/2024", "", "",
        "CD", 2, .truncated, .truncated⟩] (by with_unfolding_all decide)

end App
